import Mathlib

/-!
Verification development for ROMuLess (src/ROMuLess.py), a language-based
ROM library sorter.  The Python source is shallowly embedded below:

* filenames and path components are Lean `String`s; a path is the list of
  its components relative to the operation root (`os.walk` paths are
  reconstructed as component lists, so `os.path.join`/`relpath` become list
  operations);
* the filesystem is a pair of lists: the existing file paths and the
  existing directory paths (both relative to the root);
* `re.search` with `re.IGNORECASE` over the fixed pattern table is embedded
  pattern-by-pattern as executable Boolean matchers over the lowercased
  character list of the stem.  `\b` is the Python word boundary with
  word characters modelled as ASCII alphanumerics, underscore, and any
  non-ASCII character (Python's Unicode `\w` on the characters that occur
  in ROM names); `\s` is modelled by `Char.isWhitespace`; case folding is
  ASCII `Char.toLower` (Python also folds non-ASCII letters, which none of
  the claims depend on);
* the lazy interleaving of `os.walk` with `shutil.move` in the source is
  embedded as iteration over a snapshot of the initial enumeration: moves
  performed during a pass only remove already-yielded files or add files
  under `Moved ROMS/` (which the sort enumeration filters out), so the
  snapshot enumeration yields exactly the same files;
* `os.walk(topdown=False)` in the cleanup sweep scans every directory
  before any of its children are yielded (and hence before any consumer
  `rmdir` in its subtree), so each directory's `dirnames`/`filenames`
  snapshot equals the pre-sweep state; the embedding therefore filters the
  pre-sweep directory list.
-/

/-! ## Characters, word boundaries, `os.path.splitext` -/

/-- Python `\w` (word character) for the character set relevant here:
ASCII alphanumerics, underscore, and any non-ASCII character. -/
def isWordChar (c : Char) : Bool :=
  c.isAlphanum || c == '_' || decide (127 < c.toNat)

/-- Lowercase every character of a string (Python `.lower()` /
`re.IGNORECASE` normalisation, ASCII fold). -/
def strLower (s : String) : String := ⟨s.data.map Char.toLower⟩

/-- Embedding of `os.path.splitext` applied to a single path component:
split at the last dot provided some strictly earlier character of the
component is not a dot (leading dots never start an extension). -/
def splitext (s : String) : String × String :=
  match s.data.reverse.findIdx? (fun c => c == '.') with
  | none => (s, "")
  | some k =>
      let di := s.data.length - 1 - k
      if (s.data.take di).any (fun c => !(c == '.')) then
        (⟨s.data.take di⟩, ⟨s.data.drop di⟩)
      else (s, "")

/-! ## Language patterns (`LANGUAGE_PATTERNS` and `detect_languages`) -/

/-- Whether token `tok` occurs literally at position `i` of `t`. -/
def occursAt (tok t : List Char) (i : Nat) : Bool :=
  (t.drop i).take tok.length == tok

/-- Word boundary immediately before position `i` (for a token starting
with a word character). -/
def boundaryB (t : List Char) (i : Nat) : Bool :=
  i == 0 || !(isWordChar (t.getD (i - 1) ' '))

/-- Word boundary immediately after position `j` (for a token ending in a
word character). -/
def boundaryA (t : List Char) (j : Nat) : Bool :=
  t.length ≤ j || !(isWordChar (t.getD j ' '))

/-- Occurrence of `tok` at `i` delimited by word boundaries on both sides
(the `\b(tok)\b` building block of the pattern table; every alternation
token starts and ends with a word character). -/
def wordTokenAt (tok t : List Char) (i : Nat) : Bool :=
  occursAt tok t i && boundaryB t i && boundaryA t (i + tok.length)

/-- Some position `i` with `lo ≤ i` carries a word-bounded occurrence of
`tok` (`re.search` of `\b(tok)\b` restricted to start positions `≥ lo`,
as produced by a preceding `.*`). -/
def hasWordTokenFrom (tok t : List Char) (lo : Nat) : Bool :=
  (List.range (t.length + 1)).any (fun i => decide (lo ≤ i) && wordTokenAt tok t i)

/-- Plain `re.search` of `\b(tok)\b`. -/
def hasWordToken (tok t : List Char) : Bool := hasWordTokenFrom tok t 0

/-- Alternation `\b(tok1|tok2|...)\b`. -/
def anyWordToken (toks : List (List Char)) (t : List Char) : Bool :=
  toks.any (fun tok => hasWordToken tok t)

/-- Bare substring search (the CJK patterns carry no `\b`). -/
def containsTok (tok t : List Char) : Bool :=
  (List.range (t.length + 1)).any (fun i => occursAt tok t i)

/-- Some position `k ≥ lo` carries a word-bounded `En`, `Eng` or `English`
(the `.*\b(En|Eng|English)\b` tail shared by several patterns). -/
def enTokenFrom (t : List Char) (lo : Nat) : Bool :=
  hasWordTokenFrom "en".data t lo || hasWordTokenFrom "eng".data t lo ||
    hasWordTokenFrom "english".data t lo

/-- Exactly `d` decimal digits at position `p` followed by a word
boundary: the `[\d]+\b` tail.  Backtracking over the greedy `+` is the
existential over `d` taken by the callers. -/
def digitRunAt (t : List Char) (p d : Nat) : Bool :=
  decide (1 ≤ d) && decide (p + d ≤ t.length) &&
    ((t.drop p).take d).all Char.isDigit && boundaryA t (p + d)

/-- Some digit run starting at `p` that ends on a word boundary. -/
def someDigitRun (t : List Char) (p : Nat) : Bool :=
  (List.range (t.length + 1)).any (fun d => digitRunAt t p d)

/-- Pattern `\b(Multi\s?[\d]+|M[0-9]+)\b` (tag `multi`). -/
def patMulti (t : List Char) : Bool :=
  (List.range (t.length + 1)).any (fun i =>
    boundaryB t i &&
      ((occursAt "multi".data t i &&
          (someDigitRun t (i + 5) ||
            (Char.isWhitespace (t.getD (i + 5) 'x') && someDigitRun t (i + 6)))) ||
        (occursAt "m".data t i && someDigitRun t (i + 1))))

/-- Pattern `\b(Europe)\b.*\b(En|Eng|English)\b` (third `en` pattern). -/
def patEnEurope (t : List Char) : Bool :=
  (List.range (t.length + 1)).any (fun i =>
    wordTokenAt "europe".data t i && enTokenFrom t (i + 6))

/-- Pattern `\b(USA,\s?Europe)\b.*\b(En)\b` (fifth `en` pattern). -/
def patEnUsaEurope (t : List Char) : Bool :=
  (List.range (t.length + 1)).any (fun i =>
    boundaryB t i &&
      ((occursAt "usa,europe".data t i && boundaryA t (i + 10) &&
          hasWordTokenFrom "en".data t (i + 10)) ||
        (occursAt "usa,".data t i && Char.isWhitespace (t.getD (i + 4) 'x') &&
          occursAt "europe".data t (i + 5) && boundaryA t (i + 11) &&
          hasWordTokenFrom "en".data t (i + 11))))

/-- Combined matcher of the five `en` patterns. -/
def patEn (t : List Char) : Bool :=
  anyWordToken ["usa".data, "u".data] t ||
    anyWordToken ["en".data, "eng".data, "english".data] t ||
    patEnEurope t || anyWordToken ["world".data] t || patEnUsaEurope t

/-- Matcher of the `jp` patterns. -/
def patJp (t : List Char) : Bool :=
  anyWordToken ["jpn".data, "japan".data, "j".data] t ||
    containsTok "日本語".data t || containsTok "日文".data t

/-- Matcher of the `fr` patterns. -/
def patFr (t : List Char) : Bool :=
  anyWordToken ["fr".data, "fra".data, "french".data, "francais".data,
    "français".data] t

/-- Matcher of the `de` patterns. -/
def patDe (t : List Char) : Bool :=
  anyWordToken ["de".data, "ger".data, "german".data, "deutsch".data] t

/-- Matcher of the `es` patterns. -/
def patEs (t : List Char) : Bool :=
  anyWordToken ["es".data, "spa".data, "spanish".data, "español".data,
    "espanol".data, "castellano".data] t

/-- Matcher of the `it` patterns. -/
def patIt (t : List Char) : Bool :=
  anyWordToken ["ita".data, "it".data, "italian".data, "italiano".data] t

/-- Matcher of the `pt` patterns (`Portugu[eê]s` is the two literal
alternatives). -/
def patPt (t : List Char) : Bool :=
  anyWordToken ["pt".data, "portugues".data, "português".data, "brazil".data,
    "br".data] t

/-- Matcher of the `ru` patterns. -/
def patRu (t : List Char) : Bool :=
  anyWordToken ["ru".data, "rus".data, "russian".data, "русский".data] t

/-- Matcher of the `ko` patterns. -/
def patKo (t : List Char) : Bool :=
  anyWordToken ["kor".data, "korea".data, "korean".data] t ||
    containsTok "한국어".data t || containsTok "한글".data t

/-- Matcher of the `zh` patterns. -/
def patZh (t : List Char) : Bool :=
  anyWordToken ["chn".data, "china".data, "chinese".data] t ||
    containsTok "中文版".data t || containsTok "中文".data t ||
    containsTok "汉化".data t

/-- Region tokens of the `eu` pattern. -/
def euAlts : List (List Char) := ["eur".data, "europe".data, "eu".data]

/-- Pattern `\b(EUR|Europe|EU)\b(?!.*\b(En|Eng|English)\b)` (tag `eu`):
some word-bounded region token whose negative lookahead succeeds, i.e.
no word-bounded English token at or after the end of that occurrence. -/
def patEu (t : List Char) : Bool :=
  (List.range (t.length + 1)).any (fun i =>
    euAlts.any (fun tok =>
      wordTokenAt tok t i && !(enTokenFrom t (i + tok.length))))

/-- Embedding of `detect_languages`: the per-tag dictionary loop of the
source is unrolled in the dictionary's (insertion) order; within a tag,
`break` on the first matching pattern is the Boolean disjunction of that
tag's matchers. -/
def detect_languages (s : String) : List String :=
  let t := s.data.map Char.toLower
  (if patEn t then ["en"] else []) ++
    (if patJp t then ["jp"] else []) ++
    (if patFr t then ["fr"] else []) ++
    (if patDe t then ["de"] else []) ++
    (if patEs t then ["es"] else []) ++
    (if patIt t then ["it"] else []) ++
    (if patPt t then ["pt"] else []) ++
    (if patRu t then ["ru"] else []) ++
    (if patKo t then ["ko"] else []) ++
    (if patZh t then ["zh"] else []) ++
    (if patMulti t then ["multi"] else []) ++
    (if patEu t then ["eu"] else [])

/-! ## Decision policies -/

/-- Embedding of `should_keep` (the SORT decision), with the language
sets represented as lists: nonempty detection keeps iff some detected
language is in the keep set, and empty detection always keeps (the two
trailing `return True` branches of the source). -/
def should_keep (detected_langs keep_langs : List String) : Bool :=
  if !detected_langs.isEmpty then
    detected_langs.any (fun lang => keep_langs.contains lang)
  else if keep_langs.contains "en" then true
  else true

/-- Embedding of the remerge decision inlined in `do_remerge`: an empty
keep set restores everything; otherwise nonempty detection restores iff
it meets the keep set, and empty detection restores iff `"en"` is kept. -/
def remergeAllow (keep_langs langs : List String) : Bool :=
  if keep_langs.length == 0 then true
  else if !langs.isEmpty then langs.any (fun lang => keep_langs.contains lang)
  else keep_langs.contains "en"

/-! ## Filesystem model -/

/-- Paths are component lists relative to the operation root. -/
abbrev FPath := List String

/-- Filesystem state: the files and the directories that exist, both as
root-relative component paths. -/
structure FS where
  files : List FPath
  dirs : List FPath
deriving DecidableEq

/-- Name of the moved-aside subtree. -/
def mROOT : String := "Moved ROMS"

/-- Embedding of `ROM_EXTENSIONS`. -/
def ROM_EXTENSIONS : List String :=
  [".a26", ".a52", ".a78",
   ".nes", ".fds", ".sfc", ".smc", ".gb", ".gbc", ".gba",
   ".nds", ".dsi", ".3ds", ".cia",
   ".n64", ".z64", ".v64",
   ".sms", ".gg", ".sg", ".sgx",
   ".md", ".smd", ".gen", ".32x", ".meg", ".bin", ".rom",
   ".pce",
   ".neo", ".ngp", ".ngc", ".ngpc",
   ".cue", ".iso", ".chd", ".gdi", ".cdi",
   ".mdf", ".mds", ".nrg",
   ".cso", ".pbp",
   ".vpk", ".psv", ".psvita",
   ".nsp", ".xci",
   ".zip", ".7z", ".7zip", ".rar",
   ".adf", ".d64", ".tap", ".tzx"]

/-- Filename (`os.path.basename`) of a path. -/
def fileOf (p : FPath) : String := p.getLastD ""

/-- Stem of the filename (`os.path.splitext(filename)[0]`). -/
def stemOf (p : FPath) : String := (splitext (fileOf p)).1

/-- Lowercased extension (`os.path.splitext(f)[1].lower()`). -/
def extOf (p : FPath) : String := strLower (splitext (fileOf p)).2

/-- Known-ROM-extension test used by both enumerations. -/
def isRom (p : FPath) : Bool := ROM_EXTENSIONS.contains (extOf p)

/-- Containment in the moved-aside subtree, the
`os.path.commonpath([abs_path, moved_root_abs]) == moved_root_abs` test:
in component form, the first component is `Moved ROMS`. -/
def underMoved (p : FPath) : Bool := p.head? == some mROOT

/-- Embedding of `collect_roms`: every file with a known ROM extension,
excluding the moved-aside subtree unless `includeMoved`.  The lazy
`os.walk` of the source is snapshotted (see the header comment). -/
def collect_roms (fs : FS) (includeMoved : Bool) : List FPath :=
  fs.files.filter (fun p => isRom p && (includeMoved || !underMoved p))

/-- Checks whether a path exists (`os.path.exists`): as a file or as a
directory. -/
def existsPath (fs : FS) (p : FPath) : Bool :=
  fs.files.contains p || fs.dirs.contains p

/-- Big-endian decimal digit characters of `n` (the rendering of the
counter in the Python f-string `f"{base} ({counter}){ext}"`); the first
argument is recursion fuel, always called with `fuel = n`. -/
def decDigitsAux : Nat → Nat → List Char
  | 0, _ => []
  | fuel + 1, n =>
      if n = 0 then []
      else decDigitsAux fuel (n / 10) ++ [Char.ofNat (48 + n % 10)]

/-- Decimal rendering of a positive counter. -/
def natDec (n : Nat) : String := ⟨decDigitsAux n n⟩

/-- Candidate path with the parenthesised counter inserted before the
extension of the last component: `f"{base_no_ext} ({counter}){ext}"`.
Python splits the full path string at the last dot of its last component,
so only the last component changes. -/
def renameCounter (p : FPath) (n : Nat) : FPath :=
  p.dropLast ++
    [(splitext (fileOf p)).1 ++ " (" ++ natDec n ++ ")" ++ (splitext (fileOf p)).2]

/-- First counter `≥ c` whose candidate does not exist, searched with
explicit fuel (the Python `while os.path.exists(candidate)` loop; the
callers pass enough fuel for the pigeonhole bound). -/
def findFree (fs : FS) (d : FPath) : Nat → Nat → Nat
  | c, 0 => c
  | c, fuel + 1 =>
      if existsPath fs (renameCounter d c) then findFree fs d (c + 1) fuel else c

/-- Embedding of `unique_destination_path`. -/
def unique_destination_path (fs : FS) (d : FPath) : FPath :=
  if existsPath fs d then
    renameCounter d (findFree fs d 1 (fs.files.length + fs.dirs.length + 1))
  else d

/-- Nonempty prefixes of `l`: the chain of directories that
`os.makedirs(..., exist_ok=True)` guarantees to exist. -/
def ancestors (l : FPath) : List FPath :=
  (List.range l.length).map (fun k => l.take (k + 1))

/-- Embedding of `ensure_parent_dir`: create every missing ancestor of
the destination's parent. -/
def ensure_parent_dir (fs : FS) (dest : FPath) : FS :=
  { fs with
    dirs := fs.dirs ++ (ancestors dest.dropLast).filter (fun a => !fs.dirs.contains a) }

/-- Effect of `shutil.move(abs_path, final_abs_dest)` on the model: the
source file disappears, the destination file appears. -/
def moveFile (fs : FS) (src dest : FPath) : FS :=
  { fs with files := fs.files.erase src ++ [dest] }

/-- Live relocation of one file: `ensure_parent_dir`, then
`unique_destination_path`, then `shutil.move` (the exact statement order
of both `do_sort` and `do_remerge`). -/
def performMove (fs : FS) (src dest : FPath) : FS :=
  let fs1 := ensure_parent_dir fs dest
  moveFile fs1 src (unique_destination_path fs1 dest)

/-! ## Sort, remerge, cleanup drivers -/

/-- Logical destination of `plan_dest_paths_for_sort`:
`Moved ROMS/<original relative path>` (logical and physical destinations
coincide in root-relative form). -/
def mvDest (p : FPath) : FPath := mROOT :: p

/-- Aggregated result of a sort pass: the counts and the per-file
decision entries (relative path, logical destination where applicable,
detected tag set) that `do_sort` renders into log lines. -/
structure SortOutcome where
  kept : Nat := 0
  moved : Nat := 0
  keepEntries : List (FPath × List String) := []
  moveEntries : List (FPath × FPath × List String) := []
deriving DecidableEq

/-- One iteration of the `do_sort` loop body. -/
def sortStep (keep : List String) (live : Bool) (acc : SortOutcome × FS)
    (p : FPath) : SortOutcome × FS :=
  let langs := detect_languages (stemOf p)
  if should_keep langs keep then
    ({ acc.1 with
        kept := acc.1.kept + 1
        keepEntries := acc.1.keepEntries ++ [(p, langs)] }, acc.2)
  else
    let o := { acc.1 with
      moved := acc.1.moved + 1
      moveEntries := acc.1.moveEntries ++ [(p, mvDest p, langs)] }
    if live then (o, performMove acc.2 p (mvDest p)) else (o, acc.2)

/-- Embedding of `do_sort` (`do_move` is `live`). -/
def do_sort (fs : FS) (keep : List String) (live : Bool) : SortOutcome × FS :=
  (collect_roms fs false).foldl (sortStep keep live) ({}, fs)

/-- Aggregated result of a remerge pass; entries are keyed by the source
path under `Moved ROMS/` (the log renders it as `Moved ROMS/<rel>`). -/
structure RemergeOutcome where
  movedBack : Nat := 0
  skipped : Nat := 0
  remergeEntries : List (FPath × FPath × List String) := []
  skipEntries : List (FPath × List String) := []
deriving DecidableEq

/-- One iteration of the `do_remerge` loop body; the restore destination
is `rel_from_moved`, i.e. the path with the `Moved ROMS` head removed. -/
def remergeStep (keep : List String) (live : Bool) (acc : RemergeOutcome × FS)
    (p : FPath) : RemergeOutcome × FS :=
  let langs := detect_languages (stemOf p)
  if remergeAllow keep langs then
    ({ acc.1 with
        movedBack := acc.1.movedBack + 1
        remergeEntries := acc.1.remergeEntries ++ [(p, p.tail, langs)] },
     if live then performMove acc.2 p p.tail else acc.2)
  else
    ({ acc.1 with
        skipped := acc.1.skipped + 1
        skipEntries := acc.1.skipEntries ++ [(p, langs)] }, acc.2)

/-- ROM files inside the moved-aside subtree, as enumerated by
`os.walk(moved_root)` with the extension filter of `do_remerge`. -/
def remergeCandidates (fs : FS) : List FPath :=
  fs.files.filter (fun p => underMoved p && decide (2 ≤ p.length) && isRom p)

/-- Files a remerge pass iterates over: nothing when the moved-aside
directory does not exist (the early-return branch of `do_remerge`). -/
def remergeEnumerated (fs : FS) : List FPath :=
  if fs.dirs.contains [mROOT] then remergeCandidates fs else []

/-- Embedding of `do_remerge`. -/
def do_remerge (fs : FS) (keep : List String) (live : Bool) :
    RemergeOutcome × FS :=
  (remergeEnumerated fs).foldl (remergeStep keep live) ({}, fs)

/-- Direct child files of `d` (the `filenames` entry of the pre-sweep
`os.walk` snapshot). -/
def childFiles (fs : FS) (d : FPath) : Bool :=
  fs.files.any (fun p => p.dropLast == d)

/-- Direct child directories of `d` (the `dirnames` entry of the
pre-sweep `os.walk` snapshot). -/
def childDirs (fs : FS) (d : FPath) : Bool :=
  fs.dirs.any (fun q => q.dropLast == d)

/-- Directories visited by `os.walk(root)`: the root and every existing
directory strictly below it. -/
def walkDirs (fs : FS) (root : FPath) : List FPath :=
  root :: fs.dirs.filter (fun d => !(d == root) && root.isPrefixOf d)

/-- Embedding of `cleanup_empty_dirs`: the bottom-up sweep removes
exactly the visited directories whose pre-sweep snapshot shows no direct
children (see the header comment on `os.walk(topdown=False)` snapshot
semantics); returns the removed directories and the new state. -/
def cleanup_empty_dirs (fs : FS) (root : FPath) : List FPath × FS :=
  let removed :=
    (walkDirs fs root).filter (fun d => !childFiles fs d && !childDirs fs d)
  (removed, { fs with dirs := fs.dirs.filter (fun d => !removed.contains d) })

/-- Remerge mode of `main`: run `do_remerge`, then, when `--cleanup` and
`--move` were given and the moved-aside directory exists, sweep it. -/
def run_remerge (fs : FS) (keep : List String) (live clean : Bool) :
    RemergeOutcome × List FPath × FS :=
  let r := do_remerge fs keep live
  if clean && live && r.2.dirs.contains [mROOT] then
    let c := cleanup_empty_dirs r.2 [mROOT]
    (r.1, c.1, c.2)
  else (r.1, [], r.2)

/-! ## Decision-rule claims -/

/-- C3: for every detected tag set and keep set, a nonempty tag set is
kept iff it meets the keep set, and an empty tag set is always kept,
including for the empty keep set. -/
theorem C3_sort_decision_rule (tags keep : List String) :
    (tags ≠ [] → (should_keep tags keep = true ↔ ∃ t ∈ tags, t ∈ keep))
    ∧ (tags = [] → should_keep tags keep = true) := by
  constructor
  · intro h
    simp [should_keep, List.isEmpty_iff, h]
  · intro h
    subst h
    simp [should_keep]

/-- Closed instance of `C3_sort_decision_rule`. -/
theorem C3_sort_decision_rule_witness :
    should_keep [] [] = true ∧ should_keep ["en", "jp"] ["en"] = true := by
  refine ⟨(C3_sort_decision_rule [] []).2 rfl, ?_⟩
  exact ((C3_sort_decision_rule ["en", "jp"] ["en"]).1 (by decide)).2 (by decide)

/-- C4: the remerge decision restores everything for the explicitly empty
keep set; otherwise a nonempty tag set restores iff it meets the keep set,
and an empty tag set restores iff `"en"` is kept — in particular an
untagged file is restored for keep set `{en}` and skipped for `{fr}`. -/
theorem C4_remerge_decision_rule (tags keep : List String) :
    (keep = [] → remergeAllow keep tags = true)
    ∧ (keep ≠ [] → tags ≠ [] → (remergeAllow keep tags = true ↔ ∃ t ∈ tags, t ∈ keep))
    ∧ (keep ≠ [] → tags = [] → (remergeAllow keep tags = true ↔ "en" ∈ keep))
    ∧ remergeAllow ["en"] [] = true ∧ remergeAllow ["fr"] [] = false := by
  refine ⟨?_, ?_, ?_, by decide, by decide⟩
  · intro h; subst h; rfl
  · intro hk ht
    simp [remergeAllow, List.length_eq_zero, hk, List.isEmpty_iff, ht]
  · intro hk ht
    subst ht
    simp [remergeAllow, List.length_eq_zero, hk]

/-- Closed instance of `C4_remerge_decision_rule`. -/
theorem C4_remerge_decision_rule_witness :
    remergeAllow [] ["jp"] = true ∧ remergeAllow ["fr"] ["jp", "fr"] = true := by
  refine ⟨(C4_remerge_decision_rule ["jp"] []).1 rfl, ?_⟩
  exact ((C4_remerge_decision_rule ["jp", "fr"] ["fr"]).2.1 (by decide) (by decide)).2
    (by decide)

/-! ## Collision-safety development (`unique_destination_path`) -/

/-- Decimal value of a digit-character list, the left inverse used to
prove that the counter rendering is injective. -/
def digitsVal (l : List Char) : Nat :=
  l.foldl (fun a c => a * 10 + (c.toNat - 48)) 0

theorem digitsVal_append (l : List Char) (c : Char) :
    digitsVal (l ++ [c]) = digitsVal l * 10 + (c.toNat - 48) := by
  simp [digitsVal, List.foldl_append]

theorem charDigit_toNat (d : Nat) (hd : d < 10) :
    (Char.ofNat (48 + d)).toNat = 48 + d := by
  interval_cases d <;> rfl

theorem decDigitsAux_val : ∀ fuel n, n ≤ fuel → digitsVal (decDigitsAux fuel n) = n := by
  intro fuel
  induction fuel with
  | zero =>
      intro n hn
      have : n = 0 := Nat.le_zero.mp hn
      subst this
      rfl
  | succ f ih =>
      intro n hn
      by_cases h0 : n = 0
      · subst h0; simp [decDigitsAux, digitsVal]
      · have hdiv : n / 10 < n := Nat.div_lt_self (Nat.pos_of_ne_zero h0) (by omega)
        have hle : n / 10 ≤ f := by omega
        have hmod : n % 10 < 10 := Nat.mod_lt _ (by omega)
        have hchar := charDigit_toNat (n % 10) hmod
        have hdm := Nat.div_add_mod n 10
        calc digitsVal (decDigitsAux (f + 1) n)
            = digitsVal (decDigitsAux f (n / 10) ++ [Char.ofNat (48 + n % 10)]) := by
              simp [decDigitsAux, h0]
          _ = digitsVal (decDigitsAux f (n / 10)) * 10 + ((Char.ofNat (48 + n % 10)).toNat - 48) :=
              digitsVal_append _ _
          _ = (n / 10) * 10 + n % 10 := by rw [ih _ hle, hchar]; omega
          _ = n := by omega

theorem natDec_inj {m n : Nat} (h : natDec m = natDec n) : m = n := by
  have hd : decDigitsAux m m = decDigitsAux n n := congrArg String.data h
  have hm := decDigitsAux_val m m (Nat.le_refl m)
  have hn := decDigitsAux_val n n (Nat.le_refl n)
  rw [← hm, ← hn, hd]

theorem renameCounter_inj (p : FPath) {m n : Nat}
    (h : renameCounter p m = renameCounter p n) : m = n := by
  unfold renameCounter at h
  have h1 := List.append_cancel_left h
  have h2 : (splitext (fileOf p)).1 ++ " (" ++ natDec m ++ ")" ++ (splitext (fileOf p)).2
      = (splitext (fileOf p)).1 ++ " (" ++ natDec n ++ ")" ++ (splitext (fileOf p)).2 := by
    simpa using h1
  have h3 : (natDec m).data = (natDec n).data := by
    have hdat := congrArg String.data h2
    simp only [String.data_append, List.append_assoc] at hdat
    have h4 := List.append_cancel_left hdat
    have h5 := List.append_cancel_left h4
    exact List.append_cancel_right h5
  exact natDec_inj (by
    have : (⟨(natDec m).data⟩ : String) = ⟨(natDec n).data⟩ := by rw [h3]
    simpa using this)

theorem existsPath_iff (fs : FS) (p : FPath) :
    existsPath fs p = true ↔ p ∈ fs.files ∨ p ∈ fs.dirs := by
  simp [existsPath, List.contains, List.elem_iff]

theorem exists_free_counter (fs : FS) (d : FPath) :
    ∃ k < fs.files.length + fs.dirs.length + 1,
      existsPath fs (renameCounter d (1 + k)) = false := by
  by_contra hall
  push_neg at hall
  have hmem : ∀ k < fs.files.length + fs.dirs.length + 1,
      renameCounter d (1 + k) ∈ fs.files ++ fs.dirs := by
    intro k hk
    have := hall k hk
    have ht : existsPath fs (renameCounter d (1 + k)) = true := by
      cases hx : existsPath fs (renameCounter d (1 + k)) with
      | false => exact absurd hx this
      | true => rfl
    rcases (existsPath_iff fs _).mp ht with h | h
    · exact List.mem_append_left _ h
    · exact List.mem_append_right _ h
  set N := fs.files.length + fs.dirs.length with hN
  set cands : List FPath :=
    (List.range (N + 1)).map (fun k => renameCounter d (1 + k)) with hc
  have hnd : cands.Nodup := by
    refine List.Nodup.map ?_ (List.nodup_range _)
    intro a b hab
    have := renameCounter_inj d hab
    omega
  have hsub : cands ⊆ fs.files ++ fs.dirs := by
    intro x hx
    rcases List.mem_map.mp hx with ⟨k, hk, rfl⟩
    exact hmem k (List.mem_range.mp hk)
  have hlen := (List.subperm_of_subset hnd hsub).length_le
  simp [hc, hN] at hlen

theorem findFree_spec (fs : FS) (d : FPath) :
    ∀ fuel c, (∃ k < fuel, existsPath fs (renameCounter d (c + k)) = false) →
      existsPath fs (renameCounter d (findFree fs d c fuel)) = false
      ∧ c ≤ findFree fs d c fuel
      ∧ ∀ m, c ≤ m → m < findFree fs d c fuel →
          existsPath fs (renameCounter d m) = true := by
  intro fuel
  induction fuel with
  | zero =>
      intro c hex
      rcases hex with ⟨k, hk, _⟩
      omega
  | succ f ih =>
      intro c hex
      by_cases hc : existsPath fs (renameCounter d c) = true
      · have hrec : findFree fs d c (f + 1) = findFree fs d (c + 1) f := by
          simp [findFree, hc]
        rcases hex with ⟨k, hk, hfree⟩
        have hk0 : k ≠ 0 := by
          intro h0
          subst h0
          simp at hfree
          rw [hc] at hfree
          exact absurd hfree (by simp)
        have hex' : ∃ k' < f, existsPath fs (renameCounter d (c + 1 + k')) = false := by
          refine ⟨k - 1, by omega, ?_⟩
          have : c + 1 + (k - 1) = c + k := by omega
          rw [this]
          exact hfree
        rcases ih (c + 1) hex' with ⟨hfr, hle, hmin⟩
        rw [hrec]
        refine ⟨hfr, by omega, ?_⟩
        intro m hm1 hm2
        by_cases hmc : m = c
        · subst hmc; exact hc
        · exact hmin m (by omega) hm2
      · have hcf : existsPath fs (renameCounter d c) = false := by
          cases hx : existsPath fs (renameCounter d c) with
          | false => rfl
          | true => exact absurd hx hc
        have hrec : findFree fs d c (f + 1) = c := by
          simp [findFree, hcf]
        rw [hrec]
        exact ⟨hcf, Nat.le_refl _, fun m hm1 hm2 => by omega⟩

/-- The returned destination never currently exists (standalone form,
shared by several claims). -/
theorem ud_not_exists (fs : FS) (d : FPath) :
    existsPath fs (unique_destination_path fs d) = false := by
  by_cases h : existsPath fs d = true
  · have hud : unique_destination_path fs d
        = renameCounter d (findFree fs d 1 (fs.files.length + fs.dirs.length + 1)) := by
      simp [unique_destination_path, h]
    rcases exists_free_counter fs d with ⟨k, hk, hfree⟩
    have hex : ∃ k' < fs.files.length + fs.dirs.length + 1,
        existsPath fs (renameCounter d (1 + k')) = false := ⟨k, hk, hfree⟩
    rcases findFree_spec fs d (fs.files.length + fs.dirs.length + 1) 1 hex with ⟨hfr, _, _⟩
    rw [hud]
    exact hfr
  · have hcf : existsPath fs d = false := by
      cases hx : existsPath fs d with
      | false => rfl
      | true => exact absurd hx h
    have hud : unique_destination_path fs d = d := by
      simp [unique_destination_path, hcf]
    rw [hud]
    exact hcf

/-- C6: the engine returns the destination unchanged when it does not
exist; otherwise it returns the first counter-renamed candidate that does
not exist (every smaller counter's candidate exists); the returned path
never currently exists, so a live relocation never overwrites a file; and
relocating a second source towards the same destination after the first
result came to exist yields a different destination. -/
theorem C6_collision_safety (fs : FS) (d : FPath) :
    existsPath fs (unique_destination_path fs d) = false
    ∧ (existsPath fs d = false → unique_destination_path fs d = d)
    ∧ (existsPath fs d = true →
        ∃ n, 1 ≤ n ∧ unique_destination_path fs d = renameCounter d n
          ∧ existsPath fs (renameCounter d n) = false
          ∧ ∀ m, 1 ≤ m → m < n → existsPath fs (renameCounter d m) = true)
    ∧ ∀ fs2 : FS, existsPath fs2 (unique_destination_path fs d) = true →
        unique_destination_path fs2 d ≠ unique_destination_path fs d := by
  refine ⟨ud_not_exists fs d, ?_, ?_, ?_⟩
  · intro h
    simp [unique_destination_path, h]
  · intro h
    have hud : unique_destination_path fs d
        = renameCounter d (findFree fs d 1 (fs.files.length + fs.dirs.length + 1)) := by
      simp [unique_destination_path, h]
    rcases exists_free_counter fs d with ⟨k, hk, hfree⟩
    rcases findFree_spec fs d (fs.files.length + fs.dirs.length + 1) 1 ⟨k, hk, hfree⟩
      with ⟨hfr, hle, hmin⟩
    exact ⟨findFree fs d 1 (fs.files.length + fs.dirs.length + 1), hle, hud,
      hfr, fun m hm1 hm2 => hmin m hm1 hm2⟩
  · intro fs2 hex heq
    have := ud_not_exists fs2 d
    rw [heq] at this
    rw [this] at hex
    exact absurd hex (by simp)

/-- Closed instance of `C6_collision_safety`: with `x.nes` existing, a
fresh name is returned unchanged, the colliding name is disambiguated to
a non-existent one, and a hypothetical second relocation to the now-taken
result picks a different name. -/
theorem C6_collision_safety_witness :
    unique_destination_path ⟨[["x.nes"]], []⟩ ["y.nes"] = ["y.nes"]
    ∧ existsPath ⟨[["x.nes"]], []⟩
        (unique_destination_path ⟨[["x.nes"]], []⟩ ["x.nes"]) = false
    ∧ unique_destination_path ⟨[["x.nes"], ["x (1).nes"]], []⟩ ["x.nes"]
        ≠ unique_destination_path ⟨[["x.nes"]], []⟩ ["x.nes"] := by
  refine ⟨(C6_collision_safety ⟨[["x.nes"]], []⟩ ["y.nes"]).2.1 (by decide),
    (C6_collision_safety ⟨[["x.nes"]], []⟩ ["x.nes"]).1, ?_⟩
  exact (C6_collision_safety ⟨[["x.nes"]], []⟩ ["x.nes"]).2.2.2
    ⟨[["x.nes"], ["x (1).nes"]], []⟩ (by decide)

/-! ## Outcome and dry-run fold lemmas -/

theorem sort_foldl_outcome (keep : List String) (live live' : Bool) :
    ∀ (L : List FPath) (o : SortOutcome) (g g' : FS),
      (L.foldl (sortStep keep live) (o, g)).1
        = (L.foldl (sortStep keep live') (o, g')).1 := by
  intro L
  induction L with
  | nil => intro o g g'; simp only [List.foldl_nil]
  | cons p L ih =>
      intro o g g'
      cases h : should_keep (detect_languages (stemOf p)) keep with
      | true =>
          simp only [List.foldl_cons, sortStep, h, if_true]
          exact ih _ _ _
      | false =>
          simp only [List.foldl_cons, sortStep, h, Bool.false_eq_true, if_false]
          cases live <;> cases live' <;>
            simp only [if_true, if_false, Bool.false_eq_true] <;> exact ih _ _ _

theorem sort_foldl_dry (keep : List String) :
    ∀ (L : List FPath) (o : SortOutcome) (g : FS),
      (L.foldl (sortStep keep false) (o, g)).2 = g := by
  intro L
  induction L with
  | nil => intro o g; simp only [List.foldl_nil]
  | cons p L ih =>
      intro o g
      cases h : should_keep (detect_languages (stemOf p)) keep with
      | true =>
          simp only [List.foldl_cons, sortStep, h, if_true]
          exact ih _ _
      | false =>
          simp only [List.foldl_cons, sortStep, h, Bool.false_eq_true, if_false]
          exact ih _ _

theorem remerge_foldl_outcome (keep : List String) (live live' : Bool) :
    ∀ (L : List FPath) (o : RemergeOutcome) (g g' : FS),
      (L.foldl (remergeStep keep live) (o, g)).1
        = (L.foldl (remergeStep keep live') (o, g')).1 := by
  intro L
  induction L with
  | nil => intro o g g'; simp only [List.foldl_nil]
  | cons p L ih =>
      intro o g g'
      cases h : remergeAllow keep (detect_languages (stemOf p)) with
      | true =>
          simp only [List.foldl_cons, remergeStep, h, if_true]
          exact ih _ _ _
      | false =>
          simp only [List.foldl_cons, remergeStep, h, Bool.false_eq_true, if_false]
          exact ih _ _ _

theorem remerge_foldl_dry (keep : List String) :
    ∀ (L : List FPath) (o : RemergeOutcome) (g : FS),
      (L.foldl (remergeStep keep false) (o, g)).2 = g := by
  intro L
  induction L with
  | nil => intro o g; simp only [List.foldl_nil]
  | cons p L ih =>
      intro o g
      cases h : remergeAllow keep (detect_languages (stemOf p)) with
      | true =>
          simp only [List.foldl_cons, remergeStep, h, if_true]
          exact ih _ _
      | false =>
          simp only [List.foldl_cons, remergeStep, h, Bool.false_eq_true, if_false]
          exact ih _ _

/-- C7: with the live flag absent no filesystem mutation occurs in either
mode — the state after a dry sort, a dry remerge, or dry remerge mode
with cleanup requested is the input state and no directory is removed —
while the computed outcome (counts, per-file decisions and destination
paths) is identical to the live run's outcome. -/
theorem C7_dry_run_purity (fs : FS) (keep : List String) (clean : Bool) :
    (do_sort fs keep false).2 = fs
    ∧ (do_sort fs keep false).1 = (do_sort fs keep true).1
    ∧ (do_remerge fs keep false).2 = fs
    ∧ (do_remerge fs keep false).1 = (do_remerge fs keep true).1
    ∧ (run_remerge fs keep false clean).2.2 = fs
    ∧ (run_remerge fs keep false clean).2.1 = [] := by
  refine ⟨sort_foldl_dry keep _ _ _, sort_foldl_outcome keep false true _ _ _ _,
    remerge_foldl_dry keep _ _ _, remerge_foldl_outcome keep false true _ _ _ _,
    ?_, ?_⟩
  · simp only [run_remerge, Bool.and_false, Bool.false_and, Bool.false_eq_true,
      if_false]
    exact remerge_foldl_dry keep _ _ _
  · simp only [run_remerge, Bool.and_false, Bool.false_and, Bool.false_eq_true,
      if_false]

/-! ## Remerge outcome characterisation -/

theorem ensure_parent_dir_files (g : FS) (dest : FPath) :
    (ensure_parent_dir g dest).files = g.files := rfl

theorem performMove_files (g : FS) (src dest : FPath) :
    (performMove g src dest).files
      = g.files.erase src ++ [unique_destination_path (ensure_parent_dir g dest) dest] := rfl

theorem performMove_dirs (g : FS) (src dest : FPath) :
    (performMove g src dest).dirs = (ensure_parent_dir g dest).dirs := rfl

/-- Decision applied by the remerge loop to a candidate path. -/
def remergeDecide (keep : List String) (p : FPath) : Bool :=
  remergeAllow keep (detect_languages (stemOf p))

theorem remerge_foldl_spec (keep : List String) (live : Bool) :
    ∀ (L : List FPath) (o : RemergeOutcome) (g : FS),
      ((L.foldl (remergeStep keep live) (o, g)).1.movedBack
          = o.movedBack + (L.filter (remergeDecide keep)).length)
      ∧ ((L.foldl (remergeStep keep live) (o, g)).1.skipped
          = o.skipped + (L.filter (fun p => !remergeDecide keep p)).length)
      ∧ ((L.foldl (remergeStep keep live) (o, g)).1.remergeEntries
          = o.remergeEntries ++ (L.filter (remergeDecide keep)).map
              (fun p => (p, p.tail, detect_languages (stemOf p))))
      ∧ ((L.foldl (remergeStep keep live) (o, g)).1.skipEntries
          = o.skipEntries ++ (L.filter (fun p => !remergeDecide keep p)).map
              (fun p => (p, detect_languages (stemOf p)))) := by
  intro L
  induction L with
  | nil => intro o g; simp
  | cons p L ih =>
      intro o g
      cases h : remergeDecide keep p with
      | true =>
          have hstep : ∀ g0 : FS, (p :: L).foldl (remergeStep keep live) (o, g0)
              = L.foldl (remergeStep keep live)
                  ({ o with
                      movedBack := o.movedBack + 1
                      remergeEntries := o.remergeEntries
                        ++ [(p, p.tail, detect_languages (stemOf p))] },
                    if live then performMove g0 p p.tail else g0) := by
            intro g0
            simp only [List.foldl_cons, remergeStep, remergeDecide] at h ⊢
            simp only [h, if_true]
          rcases ih ({ o with
              movedBack := o.movedBack + 1
              remergeEntries := o.remergeEntries
                ++ [(p, p.tail, detect_languages (stemOf p))] })
            (if live then performMove g p p.tail else g) with ⟨h1, h2, h3, h4⟩
          rw [hstep g]
          refine ⟨?_, ?_, ?_, ?_⟩
          · rw [h1]; simp [List.filter_cons, h]; omega
          · rw [h2]; simp [List.filter_cons, h]
          · rw [h3]; simp [List.filter_cons, h]
          · rw [h4]; simp [List.filter_cons, h]
      | false =>
          have hstep : (p :: L).foldl (remergeStep keep live) (o, g)
              = L.foldl (remergeStep keep live)
                  ({ o with
                      skipped := o.skipped + 1
                      skipEntries := o.skipEntries
                        ++ [(p, detect_languages (stemOf p))] }, g) := by
            simp only [List.foldl_cons, remergeStep, remergeDecide] at h ⊢
            simp only [h, Bool.false_eq_true, if_false]
          rcases ih ({ o with
              skipped := o.skipped + 1
              skipEntries := o.skipEntries ++ [(p, detect_languages (stemOf p))] })
            g with ⟨h1, h2, h3, h4⟩
          rw [hstep]
          refine ⟨?_, ?_, ?_, ?_⟩
          · rw [h1]; simp [List.filter_cons, h]
          · rw [h2]; simp [List.filter_cons, h]; omega
          · rw [h3]; simp [List.filter_cons, h]
          · rw [h4]; simp [List.filter_cons, h]

theorem remerge_foldl_preserve (keep : List String) (live : Bool) :
    ∀ (L : List FPath) (o : RemergeOutcome) (g : FS) (p : FPath),
      p ∈ g.files → p ∉ L →
        p ∈ ((L.foldl (remergeStep keep live) (o, g)).2).files := by
  intro L
  induction L with
  | nil => intro o g p hp _; simpa only [List.foldl_nil] using hp
  | cons c L ih =>
      intro o g p hp hnl
      have hnc : p ≠ c := fun hh => hnl (hh ▸ List.mem_cons_self c L)
      have hnl' : p ∉ L := fun hh => hnl (List.mem_cons_of_mem c hh)
      cases h : remergeAllow keep (detect_languages (stemOf c)) with
      | true =>
          cases live with
          | true =>
              simp only [List.foldl_cons, remergeStep, h, if_true]
              refine ih _ _ p ?_ hnl'
              rw [performMove_files]
              exact List.mem_append_left _ ((List.mem_erase_of_ne hnc).mpr hp)
          | false =>
              simp only [List.foldl_cons, remergeStep, h, if_true, if_false,
                Bool.false_eq_true]
              exact ih _ _ p hp hnl'
      | false =>
          simp only [List.foldl_cons, remergeStep, h, Bool.false_eq_true, if_false]
          exact ih _ _ p hp hnl'

theorem filter_length_split {α : Type} (q : α → Bool) (l : List α) :
    (l.filter q).length + (l.filter (fun a => !q a)).length = l.length := by
  induction l with
  | nil => rfl
  | cons a l ih =>
      cases h : q a <;> simp [List.filter_cons, h] <;> omega

/-- C10: a file under the moved-aside subtree whose lowercase extension
is not a known ROM extension is not enumerated by a remerge pass, is left
in place (dry or live), appears in neither the restore entries nor the
skip entries, and the restore and skip counts add up to exactly the
enumerated (ROM-extension) files, so the file is counted in neither. -/
theorem C10_remerge_ignores_non_roms (fs : FS) (keep : List String) (live : Bool)
    (p : FPath) (hp : p ∈ fs.files) (he : isRom p = false) :
    p ∉ remergeEnumerated fs
    ∧ p ∈ (do_remerge fs keep live).2.files
    ∧ p ∉ (do_remerge fs keep live).1.remergeEntries.map (fun e => e.1)
    ∧ p ∉ (do_remerge fs keep live).1.skipEntries.map (fun e => e.1)
    ∧ (do_remerge fs keep live).1.movedBack + (do_remerge fs keep live).1.skipped
        = (remergeEnumerated fs).length := by
  have hnotin : p ∉ remergeEnumerated fs := by
    intro hmem
    unfold remergeEnumerated at hmem
    by_cases hdir : fs.dirs.contains [mROOT] = true
    · rw [if_pos hdir] at hmem
      have := (List.mem_filter.mp hmem).2
      simp only [Bool.and_eq_true] at this
      rw [he] at this
      exact absurd this.2 (by simp)
    · rw [if_neg hdir] at hmem
      exact absurd hmem (List.not_mem_nil p)
  rcases remerge_foldl_spec keep live (remergeEnumerated fs) {} fs with ⟨h1, h2, h3, h4⟩
  refine ⟨hnotin, remerge_foldl_preserve keep live _ _ _ p hp hnotin, ?_, ?_, ?_⟩
  · intro hmem
    rw [show (do_remerge fs keep live).1.remergeEntries
        = (List.foldl (remergeStep keep live) ({}, fs) (remergeEnumerated fs)).1.remergeEntries
        from rfl, h3] at hmem
    simp only [RemergeOutcome.remergeEntries, List.nil_append, List.map_map,
      List.mem_map, Function.comp] at hmem
    rcases hmem with ⟨q, hq, rfl⟩
    exact hnotin (List.mem_of_mem_filter hq)
  · intro hmem
    rw [show (do_remerge fs keep live).1.skipEntries
        = (List.foldl (remergeStep keep live) ({}, fs) (remergeEnumerated fs)).1.skipEntries
        from rfl, h4] at hmem
    simp only [RemergeOutcome.skipEntries, List.nil_append, List.map_map,
      List.mem_map, Function.comp] at hmem
    rcases hmem with ⟨q, hq, rfl⟩
    exact hnotin (List.mem_of_mem_filter hq)
  · rw [show (do_remerge fs keep live).1.movedBack
        = (List.foldl (remergeStep keep live) ({}, fs) (remergeEnumerated fs)).1.movedBack
        from rfl, h1,
      show (do_remerge fs keep live).1.skipped
        = (List.foldl (remergeStep keep live) ({}, fs) (remergeEnumerated fs)).1.skipped
        from rfl, h2]
    simp only [RemergeOutcome.movedBack, RemergeOutcome.skipped, Nat.zero_add]
    exact filter_length_split _ _

/-- Closed instance of `C10_remerge_ignores_non_roms`: a `.txt` file under
`Moved ROMS/` survives a live remerge and only the single `.nes` file is
counted. -/
theorem C10_remerge_ignores_non_roms_witness :
    ["Moved ROMS", "b.txt"]
        ∈ (do_remerge ⟨[["Moved ROMS", "b.txt"], ["Moved ROMS", "a.nes"]],
            [["Moved ROMS"]]⟩ ["fr"] true).2.files
    ∧ (do_remerge ⟨[["Moved ROMS", "b.txt"], ["Moved ROMS", "a.nes"]],
          [["Moved ROMS"]]⟩ ["fr"] true).1.movedBack
        + (do_remerge ⟨[["Moved ROMS", "b.txt"], ["Moved ROMS", "a.nes"]],
            [["Moved ROMS"]]⟩ ["fr"] true).1.skipped = 1 := by
  have h := C10_remerge_ignores_non_roms
    ⟨[["Moved ROMS", "b.txt"], ["Moved ROMS", "a.nes"]], [["Moved ROMS"]]⟩
    ["fr"] true ["Moved ROMS", "b.txt"] (by decide) (by decide)
  refine ⟨h.2.1, ?_⟩
  rw [h.2.2.2.2]
  decide

/-! ## Sort fold characterisation -/

/-- Decision applied by the sort loop to an enumerated file. -/
def sortDecide (keep : List String) (p : FPath) : Bool :=
  should_keep (detect_languages (stemOf p)) keep

theorem renameCounter_head (d : FPath) (n : Nat) (hd : 2 ≤ d.length) :
    (renameCounter d n).head? = d.head? := by
  match d, hd with
  | a :: b :: rest, _ =>
      simp [renameCounter, List.dropLast]

theorem ud_mvDest_underMoved (fs : FS) (p : FPath) (hp : p ≠ []) :
    underMoved (unique_destination_path fs (mvDest p)) = true := by
  have hlen : 2 ≤ (mvDest p).length := by
    cases p with
    | nil => exact absurd rfl hp
    | cons a l => simp [mvDest]
  unfold unique_destination_path
  by_cases h : existsPath fs (mvDest p) = true
  · rw [if_pos h]
    have hh := renameCounter_head (mvDest p)
      (findFree fs (mvDest p) 1 (fs.files.length + fs.dirs.length + 1)) hlen
    simp only [underMoved, hh]
    simp [mvDest]
  · rw [if_neg h]
    simp [underMoved, mvDest]

theorem nodup_mem_diff_not_mem :
    ∀ {m l : List FPath} {p : FPath}, l.Nodup → p ∈ l.diff m → p ∉ m := by
  intro m
  induction m with
  | nil => intro l p _ _ hm; exact absurd hm (List.not_mem_nil p)
  | cons a m ih =>
      intro l p hnd hp hm
      rw [List.diff_cons] at hp
      rcases List.mem_cons.mp hm with rfl | hm2
      · have hpe : p ∈ l.erase p := List.diff_subset _ _ hp
        rw [hnd.mem_erase_iff] at hpe
        exact hpe.1 rfl
      · exact ih (hnd.erase a) hp hm2

theorem diff_append_right :
    ∀ (M A B : List FPath), (∀ m ∈ M, m ∉ B) → (A ++ B).diff M = A.diff M ++ B := by
  intro M
  induction M with
  | nil => intro A B _; simp
  | cons m M ih =>
      intro A B hB
      have hmB : m ∉ B := hB m (List.mem_cons_self m M)
      have hB' : ∀ x ∈ M, x ∉ B := fun x hx => hB x (List.mem_cons_of_mem m hx)
      rw [List.diff_cons, List.diff_cons]
      by_cases hmA : m ∈ A
      · rw [List.erase_append_left B hmA]
        exact ih _ _ hB'
      · rw [List.erase_append_right B hmA, List.erase_of_not_mem hmB,
          List.erase_of_not_mem hmA]
        exact ih _ _ hB'

theorem sort_foldl_weak (keep : List String) :
    ∀ (L : List FPath) (o : SortOutcome) (g : FS),
      L.Nodup → (∀ p ∈ L, p ∈ g.files) → (∀ p ∈ L, underMoved p = false) →
      (∀ p ∈ L, p ≠ []) →
      ∃ dests : List FPath,
        ((L.foldl (sortStep keep true) (o, g)).2).files
            = g.files.diff (L.filter (fun p => !sortDecide keep p)) ++ dests
        ∧ (∀ d ∈ dests, underMoved d = true) := by
  intro L
  induction L with
  | nil =>
      intro o g _ _ _ _
      refine ⟨[], ?_, ?_⟩
      · simp only [List.foldl_nil, List.filter_nil, List.diff_nil, List.append_nil]
      · intro d hd
        exact absurd hd (List.not_mem_nil d)
  | cons p L ih =>
      intro o g hnd hmem hum hne
      have hndL : L.Nodup := hnd.of_cons
      have hpg : p ∈ g.files := hmem p (List.mem_cons_self p L)
      have hpnm : underMoved p = false := hum p (List.mem_cons_self p L)
      have hpne : p ≠ [] := hne p (List.mem_cons_self p L)
      have hpL : p ∉ L := by
        intro hh
        exact absurd hh (List.nodup_cons.mp hnd).1
      cases h : sortDecide keep p with
      | true =>
          simp only [sortDecide] at h
          simp only [List.foldl_cons, sortStep, h, if_true]
          rcases ih _ g hndL (fun q hq => hmem q (List.mem_cons_of_mem p hq))
            (fun q hq => hum q (List.mem_cons_of_mem p hq))
            (fun q hq => hne q (List.mem_cons_of_mem p hq)) with ⟨dests, hfiles, hdm⟩
          refine ⟨dests, ?_, hdm⟩
          rw [hfiles]
          have : (p :: L).filter (fun q => !sortDecide keep q)
              = L.filter (fun q => !sortDecide keep q) := by
            simp [List.filter_cons, sortDecide, h]
          rw [this]
      | false =>
          simp only [sortDecide] at h
          simp only [List.foldl_cons, sortStep, h, Bool.false_eq_true, if_false,
            if_true]
          set g' := performMove g p (mvDest p) with hg'
          have hg'files : g'.files = g.files.erase p
              ++ [unique_destination_path (ensure_parent_dir g (mvDest p)) (mvDest p)] := by
            rw [hg', performMove_files]
          rcases ih _ g' hndL
            (fun q hq => by
              rw [hg'files]
              have hq1 : q ∈ g.files := hmem q (List.mem_cons_of_mem p hq)
              have hq2 : q ≠ p := by
                intro hh
                subst hh
                exact hpL hq
              exact List.mem_append_left _ ((List.mem_erase_of_ne hq2).mpr hq1))
            (fun q hq => hum q (List.mem_cons_of_mem p hq))
            (fun q hq => hne q (List.mem_cons_of_mem p hq)) with ⟨dests, hfiles, hdm⟩
          refine ⟨unique_destination_path (ensure_parent_dir g (mvDest p)) (mvDest p)
            :: dests, ?_, ?_⟩
          · rw [hfiles, hg'files]
            have hfc : (p :: L).filter (fun q => !sortDecide keep q)
                = p :: L.filter (fun q => !sortDecide keep q) := by
              simp [List.filter_cons, sortDecide, h]
            rw [hfc, List.diff_cons]
            have hsplit : (g.files.erase p
                ++ [unique_destination_path (ensure_parent_dir g (mvDest p)) (mvDest p)]).diff
                  (L.filter (fun q => !sortDecide keep q))
                = (g.files.erase p).diff (L.filter (fun q => !sortDecide keep q))
                  ++ [unique_destination_path (ensure_parent_dir g (mvDest p)) (mvDest p)] := by
              apply diff_append_right
              intro m hm hmem2
              have hmum : underMoved m = false :=
                hum m (List.mem_cons_of_mem p (List.mem_of_mem_filter hm))
              have : m = unique_destination_path (ensure_parent_dir g (mvDest p)) (mvDest p) := by
                simpa using hmem2
              rw [this, ud_mvDest_underMoved _ _ hpne] at hmum
              exact absurd hmum (by simp)
            rw [hsplit]
            simp
          · intro d hd
            rcases List.mem_cons.mp hd with hd1 | hd2
            · rw [hd1]
              exact ud_mvDest_underMoved _ _ hpne
            · exact hdm d hd2

theorem sort_foldl_allkeep (keep : List String) (live : Bool) :
    ∀ (L : List FPath) (o : SortOutcome) (g : FS),
      (∀ p ∈ L, sortDecide keep p = true) →
      (L.foldl (sortStep keep live) (o, g)).2 = g
      ∧ (L.foldl (sortStep keep live) (o, g)).1.moved = o.moved := by
  intro L
  induction L with
  | nil => intro o g _; exact ⟨rfl, rfl⟩
  | cons p L ih =>
      intro o g hall
      have hp := hall p (List.mem_cons_self p L)
      simp only [sortDecide] at hp
      simp only [List.foldl_cons, sortStep, hp, if_true]
      exact ih _ _ (fun q hq => hall q (List.mem_cons_of_mem p hq))

/-- C2: after a live sort, a second live sort over the unchanged tree
moves nothing and leaves the state unchanged; every file the first run
relocated lies under the moved-aside subtree; the second enumeration
skips that subtree entirely; and every re-enumerated file is again
decided KEEP. -/
theorem C2_sort_idempotence (fs : FS) (keep : List String)
    (hnd : fs.files.Nodup) (hne : ∀ p ∈ fs.files, p ≠ []) :
    (do_sort (do_sort fs keep true).2 keep true).1.moved = 0
    ∧ (do_sort (do_sort fs keep true).2 keep true).2 = (do_sort fs keep true).2
    ∧ (∀ p ∈ (do_sort fs keep true).2.files, p ∈ fs.files ∨ underMoved p = true)
    ∧ (∀ p ∈ collect_roms (do_sort fs keep true).2 false,
        underMoved p = false ∧ sortDecide keep p = true) := by
  have hLnd : (collect_roms fs false).Nodup := hnd.filter _
  have hLmem : ∀ p ∈ collect_roms fs false, p ∈ fs.files :=
    fun p hp => List.mem_of_mem_filter hp
  have hLum : ∀ p ∈ collect_roms fs false, underMoved p = false := by
    intro p hp
    have := (List.mem_filter.mp hp).2
    simp only [Bool.false_or, Bool.and_eq_true, Bool.not_eq_true'] at this
    exact this.2
  have hLne : ∀ p ∈ collect_roms fs false, p ≠ [] := fun p hp => hne p (hLmem p hp)
  rcases sort_foldl_weak keep (collect_roms fs false) {} fs hLnd hLmem hLum hLne
    with ⟨dests, hfiles, hdm⟩
  have hfs1 : (do_sort fs keep true).2.files
      = fs.files.diff ((collect_roms fs false).filter (fun p => !sortDecide keep p))
        ++ dests := by
    simp only [do_sort]
    exact hfiles
  have hmemsplit : ∀ p ∈ (do_sort fs keep true).2.files,
      p ∈ fs.files ∨ underMoved p = true := by
    intro p hp
    rw [hfs1] at hp
    rcases List.mem_append.mp hp with h1 | h2
    · exact Or.inl (List.diff_subset _ _ h1)
    · exact Or.inr (hdm p h2)
  have hcand : ∀ p ∈ collect_roms (do_sort fs keep true).2 false,
      underMoved p = false ∧ sortDecide keep p = true := by
    intro p hp
    have hum2 : underMoved p = false := by
      have := (List.mem_filter.mp hp).2
      simp only [Bool.false_or, Bool.and_eq_true, Bool.not_eq_true'] at this
      exact this.2
    have hrom : isRom p = true := by
      have := (List.mem_filter.mp hp).2
      simp only [Bool.false_or, Bool.and_eq_true, Bool.not_eq_true'] at this
      exact this.1
    refine ⟨hum2, ?_⟩
    have hpfs1 : p ∈ (do_sort fs keep true).2.files := List.mem_of_mem_filter hp
    rw [hfs1] at hpfs1
    have hpdiff : p ∈ fs.files.diff
        ((collect_roms fs false).filter (fun q => !sortDecide keep q)) := by
      rcases List.mem_append.mp hpfs1 with h1 | h2
      · exact h1
      · rw [hdm p h2] at hum2
        exact absurd hum2 (by simp)
    have hpfs : p ∈ fs.files := List.diff_subset _ _ hpdiff
    have hpL : p ∈ collect_roms fs false := by
      refine List.mem_filter.mpr ⟨hpfs, ?_⟩
      simp [hrom, hum2]
    have hpnotMv := nodup_mem_diff_not_mem hnd hpdiff
    cases hdec : sortDecide keep p with
    | true => rfl
    | false =>
        exact absurd (List.mem_filter.mpr ⟨hpL, by simp [hdec]⟩) hpnotMv
  have hall := sort_foldl_allkeep keep true (collect_roms (do_sort fs keep true).2 false)
    {} (do_sort fs keep true).2 (fun p hp => (hcand p hp).2)
  refine ⟨?_, ?_, hmemsplit, hcand⟩
  · have : (do_sort (do_sort fs keep true).2 keep true).1.moved
        = (({} : SortOutcome)).moved := by
      simp only [do_sort]
      exact hall.2
    simpa using this
  · simp only [do_sort]
    exact hall.1

/-- Closed instance of `C2_sort_idempotence`: the second live sort of a
small library moves nothing. -/
theorem C2_sort_idempotence_witness :
    (do_sort (do_sort ⟨[["A (Japan).nes"], ["B (USA).nes"]], []⟩ ["en"] true).2
        ["en"] true).1.moved = 0
    ∧ (do_sort (do_sort ⟨[["A (Japan).nes"], ["B (USA).nes"]], []⟩ ["en"] true).2
        ["en"] true).2
      = (do_sort ⟨[["A (Japan).nes"], ["B (USA).nes"]], []⟩ ["en"] true).2 := by
  have h := C2_sort_idempotence ⟨[["A (Japan).nes"], ["B (USA).nes"]], []⟩ ["en"]
    (by decide) (by decide)
  exact ⟨h.1, h.2.1⟩

/-! ## List arithmetic helpers for the round-trip proof -/

theorem count_diff_eq (a : FPath) :
    ∀ (M X : List FPath), (X.diff M).count a = X.count a - M.count a := by
  intro M
  induction M with
  | nil => intro X; simp
  | cons m M ih =>
      intro X
      rw [List.diff_cons, ih, List.count_erase, List.count_cons]
      by_cases h : a = m
      · subst h; simp; omega
      · have h1 : (m == a) = false := by
          cases hb : m == a with
          | false => rfl
          | true => exact absurd (LawfulBEq.eq_of_beq hb).symm h
        have h2 : (a == m) = false := by
          cases hb : a == m with
          | false => rfl
          | true => exact absurd (LawfulBEq.eq_of_beq hb) h
        simp only [h1, h2, Bool.false_eq_true, if_false]
        omega

theorem fpath_perm_cons_erase :
    ∀ {l : List FPath} {a : FPath}, a ∈ l → List.Perm l (a :: l.erase a) := by
  intro l
  induction l with
  | nil => intro a h; cases h
  | cons b l ih =>
      intro a h
      by_cases hb : b = a
      · subst hb
        rw [List.erase_cons_head]
      · have hbeq : ¬((b == a) = true) := by
          intro hbb
          exact hb (LawfulBEq.eq_of_beq hbb)
        have h' : a ∈ l := by
          rcases List.mem_cons.mp h with rfl | h2
          · exact absurd rfl hb
          · exact h2
        rw [List.erase_cons_tail (by simpa using hbeq)]
        refine List.Perm.trans (List.Perm.cons b (ih h')) ?_
        exact List.Perm.swap a b _

theorem sublist_diff_append_perm :
    ∀ (M X : List FPath), M.Sublist X → List.Perm (X.diff M ++ M) X := by
  intro M
  induction M with
  | nil => intro X _; simp
  | cons m M ih =>
      intro X h
      have hmX : m ∈ X := h.subset (List.mem_cons_self m M)
      have hMX : M.Sublist (X.erase m) := by
        have := h.erase m
        rwa [List.erase_cons_head] at this
      rw [List.diff_cons]
      refine List.Perm.trans List.perm_middle ?_
      refine List.Perm.trans (List.Perm.cons m (ih _ hMX)) ?_
      exact (fpath_perm_cons_erase hmX).symm

theorem append_diff_self_right :
    ∀ (B A : List FPath), (∀ m ∈ B, m ∉ A) → (A ++ B).diff B = A := by
  intro B
  induction B with
  | nil => intro A _; simp
  | cons b B ih =>
      intro A hB
      rw [List.diff_cons,
        List.erase_append_right (b :: B) (hB b (List.mem_cons_self b B)),
        List.erase_cons_head]
      exact ih A (fun m hm => hB m (List.mem_cons_of_mem b hm))

/-! ## Path-shape helpers -/

theorem mvDest_inj {p q : FPath} (h : mvDest p = mvDest q) : p = q := by
  simpa [mvDest] using h

theorem mvDest_underMoved (p : FPath) : underMoved (mvDest p) = true := by
  simp [underMoved, mvDest]

theorem mvDest_tail (p : FPath) : (mvDest p).tail = p := rfl

theorem mvDest_length {p : FPath} (hp : p ≠ []) : 2 ≤ (mvDest p).length := by
  cases p with
  | nil => exact absurd rfl hp
  | cons a l => simp [mvDest]

theorem fileOf_mvDest {p : FPath} (hp : p ≠ []) : fileOf (mvDest p) = fileOf p := by
  cases p with
  | nil => exact absurd rfl hp
  | cons a l => simp [fileOf, mvDest, List.getLastD_cons]

theorem isRom_mvDest {p : FPath} (hp : p ≠ []) : isRom (mvDest p) = isRom p := by
  simp [isRom, extOf, fileOf_mvDest hp]

theorem underMoved_eq_cons {p : FPath} (h : underMoved p = true) :
    p = mROOT :: p.tail := by
  cases p with
  | nil => simp [underMoved] at h
  | cons a l =>
      simp only [underMoved, List.head?] at h
      have : a = mROOT := by simpa using h
      rw [this]
      rfl

theorem underMoved_tail_inj {p q : FPath} (hp : underMoved p = true)
    (hq : underMoved q = true) (h : p.tail = q.tail) : p = q := by
  rw [underMoved_eq_cons hp, underMoved_eq_cons hq, h]

theorem head_of_prefix_cons {r : FPath} {a : String} {q : FPath}
    (h : r <+: a :: q) (hr : r ≠ []) : r.head? = some a := by
  cases r with
  | nil => exact absurd rfl hr
  | cons b rb =>
      have := (List.cons_prefix_cons.mp h).1
      rw [this]
      rfl

theorem mem_ancestors {d l : FPath} (h : d ∈ ancestors l) : d <+: l ∧ d ≠ [] := by
  rcases List.mem_map.mp h with ⟨k, hk, rfl⟩
  have hkl : k < l.length := List.mem_range.mp hk
  constructor
  · exact List.take_prefix _ _
  · have : (l.take (k + 1)).length = k + 1 := by
      rw [List.length_take]
      omega
    intro hnil
    rw [hnil] at this
    simp at this
  
theorem root_mem_ancestors {l : FPath} (h : l.head? = some mROOT) :
    [mROOT] ∈ ancestors l := by
  cases l with
  | nil => simp at h
  | cons a rest =>
      have ha : a = mROOT := by simpa using h
      subst ha
      refine List.mem_map.mpr ⟨0, ?_, rfl⟩
      simp

theorem mem_ensure_dirs (g : FS) (dest d : FPath) :
    d ∈ (ensure_parent_dir g dest).dirs
      ↔ d ∈ g.dirs ∨ d ∈ ancestors dest.dropLast := by
  simp only [ensure_parent_dir, List.mem_append, List.mem_filter,
    Bool.not_eq_true']
  constructor
  · rintro (h | ⟨h, _⟩)
    · exact Or.inl h
    · exact Or.inr h
  · rintro (h | h)
    · exact Or.inl h
    · by_cases hh : d ∈ g.dirs
      · exact Or.inl hh
      · refine Or.inr ⟨h, ?_⟩
        cases hc : g.dirs.contains d with
        | false => rfl
        | true =>
            rcases List.contains_iff_exists_mem_beq.mp hc with ⟨x, hx, hbx⟩
            exact absurd ((LawfulBEq.eq_of_beq hbx) ▸ hx) hh

theorem existsPath_eq_false_intro {fs : FS} {p : FPath}
    (h1 : p ∉ fs.files) (h2 : p ∉ fs.dirs) : existsPath fs p = false := by
  cases hx : existsPath fs p with
  | false => rfl
  | true =>
      rcases (existsPath_iff fs p).mp hx with h | h
      · exact absurd h h1
      · exact absurd h h2

theorem ud_eq_self {fs : FS} {d : FPath} (h : existsPath fs d = false) :
    unique_destination_path fs d = d := by
  simp [unique_destination_path, h]

theorem sort_foldl_spec (keep : List String) (live : Bool) :
    ∀ (L : List FPath) (o : SortOutcome) (g : FS),
      ((L.foldl (sortStep keep live) (o, g)).1.kept
          = o.kept + (L.filter (sortDecide keep)).length)
      ∧ ((L.foldl (sortStep keep live) (o, g)).1.moved
          = o.moved + (L.filter (fun p => !sortDecide keep p)).length)
      ∧ ((L.foldl (sortStep keep live) (o, g)).1.keepEntries
          = o.keepEntries ++ (L.filter (sortDecide keep)).map
              (fun p => (p, detect_languages (stemOf p))))
      ∧ ((L.foldl (sortStep keep live) (o, g)).1.moveEntries
          = o.moveEntries ++ (L.filter (fun p => !sortDecide keep p)).map
              (fun p => (p, mvDest p, detect_languages (stemOf p)))) := by
  intro L
  induction L with
  | nil => intro o g; simp
  | cons p L ih =>
      intro o g
      cases h : sortDecide keep p with
      | true =>
          have hs : should_keep (detect_languages (stemOf p)) keep = true := h
          simp only [List.foldl_cons, sortStep, hs, if_true]
          rcases ih ({ o with
              kept := o.kept + 1
              keepEntries := o.keepEntries ++ [(p, detect_languages (stemOf p))] })
            g with ⟨h1, h2, h3, h4⟩
          refine ⟨?_, ?_, ?_, ?_⟩
          · rw [h1]; simp [List.filter_cons, h]; omega
          · rw [h2]; simp [List.filter_cons, h]
          · rw [h3]; simp [List.filter_cons, h]
          · rw [h4]; simp [List.filter_cons, h]
      | false =>
          have hs : should_keep (detect_languages (stemOf p)) keep = false := h
          simp only [List.foldl_cons, sortStep, hs, Bool.false_eq_true, if_false]
          have key : ∀ g0 : FS,
              (L.foldl (sortStep keep live)
                ({ o with
                    moved := o.moved + 1
                    moveEntries := o.moveEntries
                      ++ [(p, mvDest p, detect_languages (stemOf p))] }, g0)).1.kept
                  = o.kept + ((p :: L).filter (sortDecide keep)).length
              ∧ (L.foldl (sortStep keep live)
                  ({ o with
                      moved := o.moved + 1
                      moveEntries := o.moveEntries
                        ++ [(p, mvDest p, detect_languages (stemOf p))] }, g0)).1.moved
                  = o.moved + ((p :: L).filter (fun q => !sortDecide keep q)).length
              ∧ (L.foldl (sortStep keep live)
                  ({ o with
                      moved := o.moved + 1
                      moveEntries := o.moveEntries
                        ++ [(p, mvDest p, detect_languages (stemOf p))] }, g0)).1.keepEntries
                  = o.keepEntries ++ ((p :: L).filter (sortDecide keep)).map
                      (fun q => (q, detect_languages (stemOf q)))
              ∧ (L.foldl (sortStep keep live)
                  ({ o with
                      moved := o.moved + 1
                      moveEntries := o.moveEntries
                        ++ [(p, mvDest p, detect_languages (stemOf p))] }, g0)).1.moveEntries
                  = o.moveEntries ++ ((p :: L).filter (fun q => !sortDecide keep q)).map
                      (fun q => (q, mvDest q, detect_languages (stemOf q))) := by
            intro g0
            rcases ih ({ o with
                moved := o.moved + 1
                moveEntries := o.moveEntries
                  ++ [(p, mvDest p, detect_languages (stemOf p))] }) g0
              with ⟨h1, h2, h3, h4⟩
            refine ⟨?_, ?_, ?_, ?_⟩
            · rw [h1]; simp [List.filter_cons, h]
            · rw [h2]; simp [List.filter_cons, h]; omega
            · rw [h3]; simp [List.filter_cons, h]
            · rw [h4]; simp [List.filter_cons, h]
          cases live with
          | true => simpa using key (performMove g p (mvDest p))
          | false => simpa using key g

theorem underMoved_of_head {d : FPath} (h : d.head? = some mROOT) :
    underMoved d = true := by
  simp [underMoved, h]

theorem dropLast_mvDest_head {p : FPath} (hp : p ≠ []) :
    ((mvDest p).dropLast).head? = some mROOT := by
  cases p with
  | nil => exact absurd rfl hp
  | cons a l => simp [mvDest, List.dropLast]

theorem sort_foldl_exact (keep : List String) :
    ∀ (L : List FPath) (o : SortOutcome) (g : FS),
      L.Nodup →
      (∀ p ∈ L, p ∈ g.files) →
      (∀ p ∈ L, underMoved p = false) →
      (∀ p ∈ L, p ≠ []) →
      (∀ p ∈ L, ∀ q ∈ L, p <+: q → p = q) →
      (∀ p ∈ L, mvDest p ∉ g.files) →
      (∀ p ∈ L, mvDest p ∉ g.dirs) →
      ((L.foldl (sortStep keep true) (o, g)).2.files
          = g.files.diff (L.filter (fun p => !sortDecide keep p))
            ++ (L.filter (fun p => !sortDecide keep p)).map mvDest)
      ∧ (∀ d ∈ g.dirs, d ∈ (L.foldl (sortStep keep true) (o, g)).2.dirs)
      ∧ (∀ d ∈ (L.foldl (sortStep keep true) (o, g)).2.dirs,
          d ∈ g.dirs ∨ (underMoved d = true ∧ d ≠ []))
      ∧ (∀ p ∈ L, sortDecide keep p = false →
          [mROOT] ∈ (L.foldl (sortStep keep true) (o, g)).2.dirs) := by
  intro L
  induction L with
  | nil =>
      intro o g _ _ _ _ _ _ _
      refine ⟨by simp, fun d hd => by simpa using hd, fun d hd => Or.inl (by simpa using hd),
        fun p hp _ => absurd hp (List.not_mem_nil p)⟩
  | cons p L ih =>
      intro o g hnd hmem hum hne hpref hmvf hmvd
      have hndL : L.Nodup := hnd.of_cons
      have hpL : p ∉ L := (List.nodup_cons.mp hnd).1
      have hpmem := hmem p (List.mem_cons_self p L)
      have hpne := hne p (List.mem_cons_self p L)
      cases hdec : sortDecide keep p with
      | true =>
          have hs : should_keep (detect_languages (stemOf p)) keep = true := hdec
          simp only [List.foldl_cons, sortStep, hs, if_true]
          rcases ih _ g hndL
            (fun q hq => hmem q (List.mem_cons_of_mem p hq))
            (fun q hq => hum q (List.mem_cons_of_mem p hq))
            (fun q hq => hne q (List.mem_cons_of_mem p hq))
            (fun q hq r hr => hpref q (List.mem_cons_of_mem p hq) r
              (List.mem_cons_of_mem p hr))
            (fun q hq => hmvf q (List.mem_cons_of_mem p hq))
            (fun q hq => hmvd q (List.mem_cons_of_mem p hq)) with ⟨h1, h2, h3, h4⟩
          have hfc : (p :: L).filter (fun q => !sortDecide keep q)
              = L.filter (fun q => !sortDecide keep q) := by
            simp [List.filter_cons, hdec]
          refine ⟨by rw [hfc]; exact h1, h2, h3, ?_⟩
          intro q hq hqdec
          rcases List.mem_cons.mp hq with rfl | hq2
          · rw [hdec] at hqdec
            exact absurd hqdec (by simp)
          · exact h4 q hq2 hqdec
      | false =>
          have hs : should_keep (detect_languages (stemOf p)) keep = false := hdec
          simp only [List.foldl_cons, sortStep, hs, Bool.false_eq_true, if_false,
            if_true]
          have hg1files : (ensure_parent_dir g (mvDest p)).files = g.files := rfl
          have hudp : unique_destination_path (ensure_parent_dir g (mvDest p)) (mvDest p)
              = mvDest p := by
            refine ud_eq_self (existsPath_eq_false_intro ?_ ?_)
            · rw [hg1files]
              exact hmvf p (List.mem_cons_self p L)
            · intro hmm
              rcases (mem_ensure_dirs g (mvDest p) (mvDest p)).mp hmm with hh | hh
              · exact hmvd p (List.mem_cons_self p L) hh
              · rcases mem_ancestors hh with ⟨hpre, _⟩
                have hlen := hpre.length_le
                rw [List.length_dropLast] at hlen
                have : 1 ≤ (mvDest p).length := by simp [mvDest]
                omega
          have hg2 : performMove g p (mvDest p)
              = FS.mk (g.files.erase p ++ [mvDest p])
                  ((ensure_parent_dir g (mvDest p)).dirs) := by
            simp only [performMove, moveFile, hudp]
            rfl
          rw [hg2]
          have hmemg2 : ∀ q ∈ L, q ∈ g.files.erase p ++ [mvDest p] := by
            intro q hq
            have hq1 : q ∈ g.files := hmem q (List.mem_cons_of_mem p hq)
            have hq2 : q ≠ p := fun hh => hpL (hh ▸ hq)
            exact List.mem_append_left _ ((List.mem_erase_of_ne hq2).mpr hq1)
          have hmvfg2 : ∀ q ∈ L, mvDest q ∉ g.files.erase p ++ [mvDest p] := by
            intro q hq hmm
            rcases List.mem_append.mp hmm with hh | hh
            · exact hmvf q (List.mem_cons_of_mem p hq) (List.mem_of_mem_erase hh)
            · have : mvDest q = mvDest p := by simpa using hh
              exact hpL (mvDest_inj this ▸ hq)
          have hmvdg2 : ∀ q ∈ L, mvDest q ∉ (ensure_parent_dir g (mvDest p)).dirs := by
            intro q hq hmm
            rcases (mem_ensure_dirs g (mvDest p) (mvDest q)).mp hmm with hh | hh
            · exact hmvd q (List.mem_cons_of_mem p hq) hh
            · rcases mem_ancestors hh with ⟨hpre, _⟩
              have hpre2 : mvDest q <+: mvDest p :=
                hpre.trans (List.dropLast_prefix (mvDest p))
              have hlen := hpre.length_le
              rw [List.length_dropLast] at hlen
              have hqp : q <+: p := (List.cons_prefix_cons.mp hpre2).2
              have : q = p := hpref q (List.mem_cons_of_mem p hq) p
                (List.mem_cons_self p L) hqp
              subst this
              simp [mvDest] at hlen
          rcases ih _ (FS.mk (g.files.erase p ++ [mvDest p])
              ((ensure_parent_dir g (mvDest p)).dirs)) hndL hmemg2
            (fun q hq => hum q (List.mem_cons_of_mem p hq))
            (fun q hq => hne q (List.mem_cons_of_mem p hq))
            (fun q hq r hr => hpref q (List.mem_cons_of_mem p hq) r
              (List.mem_cons_of_mem p hr))
            hmvfg2 hmvdg2 with ⟨h1, h2, h3, h4⟩
          have hfc : (p :: L).filter (fun q => !sortDecide keep q)
              = p :: L.filter (fun q => !sortDecide keep q) := by
            simp [List.filter_cons, hdec]
          refine ⟨?_, ?_, ?_, ?_⟩
          · rw [h1, hfc, List.diff_cons, List.map_cons]
            have hsplit : (g.files.erase p ++ [mvDest p]).diff
                  (L.filter (fun q => !sortDecide keep q))
                = (g.files.erase p).diff (L.filter (fun q => !sortDecide keep q))
                  ++ [mvDest p] := by
              apply diff_append_right
              intro m hm hmm
              have hmum : underMoved m = false :=
                hum m (List.mem_cons_of_mem p (List.mem_of_mem_filter hm))
              have : m = mvDest p := by simpa using hmm
              rw [this, mvDest_underMoved] at hmum
              exact absurd hmum (by simp)
            rw [show (FS.mk (g.files.erase p ++ [mvDest p])
                ((ensure_parent_dir g (mvDest p)).dirs)).files
                = g.files.erase p ++ [mvDest p] from rfl, hsplit,
              List.append_assoc, List.singleton_append]
          · intro d hd
            refine h2 d ?_
            exact (mem_ensure_dirs g (mvDest p) d).mpr (Or.inl hd)
          · intro d hd
            rcases h3 d hd with hh | hh
            · rcases (mem_ensure_dirs g (mvDest p) d).mp hh with h5 | h5
              · exact Or.inl h5
              · rcases mem_ancestors h5 with ⟨hpre, hdne⟩
                refine Or.inr ⟨?_, hdne⟩
                have hpre2 : d <+: mvDest p :=
                  hpre.trans (List.dropLast_prefix (mvDest p))
                exact underMoved_of_head (head_of_prefix_cons hpre2 hdne)
            · exact Or.inr hh
          · intro q hq hqdec
            rcases List.mem_cons.mp hq with rfl | hq2
            · refine h2 [mROOT] ?_
              exact (mem_ensure_dirs g (mvDest q) [mROOT]).mpr
                (Or.inr (root_mem_ancestors (dropLast_mvDest_head hpne)))
            · exact h4 q hq2 hqdec

theorem remergeAllow_nil (langs : List String) : remergeAllow [] langs = true := rfl

theorem remerge_foldl_exact :
    ∀ (L : List FPath) (o : RemergeOutcome) (g : FS),
      L.Nodup →
      (∀ p ∈ L, p ∈ g.files) →
      (∀ p ∈ L, underMoved p = true) →
      (∀ p ∈ L, p.tail ∉ g.files) →
      (∀ p ∈ L, p.tail ∉ g.dirs) →
      (∀ p ∈ L, ∀ q ∈ L, p.tail <+: q.tail → p = q) →
      (L.foldl (remergeStep [] true) (o, g)).2.files
        = g.files.diff L ++ L.map (fun p => p.tail) := by
  intro L
  induction L with
  | nil => intro o g _ _ _ _ _ _; simp
  | cons p L ih =>
      intro o g hnd hmem hum htf htd hpref
      have hndL : L.Nodup := hnd.of_cons
      have hpL : p ∉ L := (List.nodup_cons.mp hnd).1
      have hptf := htf p (List.mem_cons_self p L)
      have hptd := htd p (List.mem_cons_self p L)
      have hallow : remergeAllow [] (detect_languages (stemOf p)) = true :=
        remergeAllow_nil _
      simp only [List.foldl_cons, remergeStep, hallow, if_true]
      have hudp : unique_destination_path (ensure_parent_dir g p.tail) p.tail
          = p.tail := by
        refine ud_eq_self (existsPath_eq_false_intro hptf ?_)
        intro hmm
        rcases (mem_ensure_dirs g p.tail p.tail).mp hmm with hh | hh
        · exact hptd hh
        · rcases mem_ancestors hh with ⟨hpre, _⟩
          have hlen := hpre.length_le
          rw [List.length_dropLast] at hlen
          have hplen : p.tail ≠ [] := (mem_ancestors hh).2
          have : 1 ≤ p.tail.length := by
            cases hpt : p.tail with
            | nil => exact absurd hpt hplen
            | cons a l => simp
          omega
      have hg2 : performMove g p p.tail
          = FS.mk (g.files.erase p ++ [p.tail])
              ((ensure_parent_dir g p.tail).dirs) := by
        simp only [performMove, moveFile, hudp]
        rfl
      rw [hg2]
      have hmemg2 : ∀ q ∈ L, q ∈ g.files.erase p ++ [p.tail] := by
        intro q hq
        have hq1 : q ∈ g.files := hmem q (List.mem_cons_of_mem p hq)
        have hq2 : q ≠ p := fun hh => hpL (hh ▸ hq)
        exact List.mem_append_left _ ((List.mem_erase_of_ne hq2).mpr hq1)
      have htfg2 : ∀ q ∈ L, q.tail ∉ g.files.erase p ++ [p.tail] := by
        intro q hq hmm
        rcases List.mem_append.mp hmm with hh | hh
        · exact htf q (List.mem_cons_of_mem p hq) (List.mem_of_mem_erase hh)
        · have heq : q.tail = p.tail := by simpa using hh
          have : q = p := underMoved_tail_inj
            (hum q (List.mem_cons_of_mem p hq)) (hum p (List.mem_cons_self p L)) heq
          exact hpL (this ▸ hq)
      have htdg2 : ∀ q ∈ L, q.tail ∉ (ensure_parent_dir g p.tail).dirs := by
        intro q hq hmm
        rcases (mem_ensure_dirs g p.tail q.tail).mp hmm with hh | hh
        · exact htd q (List.mem_cons_of_mem p hq) hh
        · rcases mem_ancestors hh with ⟨hpre, _⟩
          have hpre2 : q.tail <+: p.tail := hpre.trans (List.dropLast_prefix p.tail)
          have : q = p := hpref q (List.mem_cons_of_mem p hq) p
            (List.mem_cons_self p L) hpre2
          exact hpL (this ▸ hq)
      rw [ih _ (FS.mk (g.files.erase p ++ [p.tail])
          ((ensure_parent_dir g p.tail).dirs)) hndL hmemg2
        (fun q hq => hum q (List.mem_cons_of_mem p hq)) htfg2 htdg2
        (fun q hq r hr => hpref q (List.mem_cons_of_mem p hq) r
          (List.mem_cons_of_mem p hr))]
      have hsplit : (g.files.erase p ++ [p.tail]).diff L
          = (g.files.erase p).diff L ++ [p.tail] := by
        apply diff_append_right
        intro m hm hmm
        have hmg : m ∈ g.files := hmem m (List.mem_cons_of_mem p hm)
        have : m = p.tail := by simpa using hmm
        exact hptf (this ▸ hmg)
      rw [show (FS.mk (g.files.erase p ++ [p.tail])
          ((ensure_parent_dir g p.tail).dirs)).files
          = g.files.erase p ++ [p.tail] from rfl, hsplit, List.diff_cons,
        List.map_cons, List.append_assoc, List.singleton_append]

/-- C1: starting from a well-formed library with nothing pre-existing
under `Moved ROMS/` (the no-pre-existing-collision hypothesis), a live
sort followed by a live remerge with the explicitly-empty restore-all
keep set yields a file set that is a permutation of the original one,
and every file the sort moved is back at its original relative path. -/
theorem C1_round_trip (fs : FS) (keep : List String)
    (hnd : fs.files.Nodup)
    (hne : ∀ p ∈ fs.files, p ≠ [])
    (hnm : ∀ p ∈ fs.files, underMoved p = false)
    (hdnm : ∀ d ∈ fs.dirs, underMoved d = false)
    (hpref : ∀ p ∈ fs.files, ∀ q ∈ fs.files, p <+: q → p = q)
    (hfd : ∀ p ∈ fs.files, p ∉ fs.dirs) :
    List.Perm (do_remerge (do_sort fs keep true).2 [] true).2.files fs.files
    ∧ ∀ e ∈ (do_sort fs keep true).1.moveEntries,
        e.1 ∈ (do_remerge (do_sort fs keep true).2 [] true).2.files := by
  have hds : do_sort fs keep true
      = (collect_roms fs false).foldl (sortStep keep true) ({}, fs) := rfl
  have hLnd : (collect_roms fs false).Nodup := hnd.filter _
  have hLmem : ∀ p ∈ collect_roms fs false, p ∈ fs.files :=
    fun p hp => List.mem_of_mem_filter hp
  have hLum : ∀ p ∈ collect_roms fs false, underMoved p = false :=
    fun p hp => hnm p (hLmem p hp)
  have hLne : ∀ p ∈ collect_roms fs false, p ≠ [] := fun p hp => hne p (hLmem p hp)
  have hLrom : ∀ p ∈ collect_roms fs false, isRom p = true := by
    intro p hp
    have := (List.mem_filter.mp hp).2
    simp only [Bool.false_or, Bool.and_eq_true] at this
    exact this.1
  have hLpref : ∀ p ∈ collect_roms fs false, ∀ q ∈ collect_roms fs false,
      p <+: q → p = q :=
    fun p hp q hq h => hpref p (hLmem p hp) q (hLmem q hq) h
  have hLmvf : ∀ p ∈ collect_roms fs false, mvDest p ∉ fs.files := by
    intro p _ hmm
    have := hnm (mvDest p) hmm
    rw [mvDest_underMoved] at this
    exact absurd this (by simp)
  have hLmvd : ∀ p ∈ collect_roms fs false, mvDest p ∉ fs.dirs := by
    intro p _ hmm
    have := hdnm (mvDest p) hmm
    rw [mvDest_underMoved] at this
    exact absurd this (by simp)
  rcases sort_foldl_exact keep (collect_roms fs false) {} fs hLnd hLmem hLum hLne
    hLpref hLmvf hLmvd with ⟨h1, _, h3, h4⟩
  have hMvdec : ∀ p ∈ (collect_roms fs false).filter (fun q => !sortDecide keep q),
      sortDecide keep p = false := by
    intro p hp
    have := (List.mem_filter.mp hp).2
    simpa using this
  have hmvEntries : (do_sort fs keep true).1.moveEntries
      = ((collect_roms fs false).filter (fun q => !sortDecide keep q)).map
          (fun q => (q, mvDest q, detect_languages (stemOf q))) := by
    rw [hds]
    rcases sort_foldl_spec keep true (collect_roms fs false) {} fs with ⟨_, _, _, hme⟩
    simpa using hme
  by_cases hMv : (collect_roms fs false).filter (fun q => !sortDecide keep q) = []
  · -- no file was moved: the sort is a no-op and the remerge finds no
    -- moved-aside directory
    have hall : ∀ p ∈ collect_roms fs false, sortDecide keep p = true := by
      intro p hp
      cases hq : sortDecide keep p with
      | true => rfl
      | false =>
          have : p ∈ (collect_roms fs false).filter (fun q => !sortDecide keep q) :=
            List.mem_filter.mpr ⟨hp, by simp [hq]⟩
          rw [hMv] at this
          exact absurd this (List.not_mem_nil p)
    have hfs1 : (do_sort fs keep true).2 = fs := by
      rw [hds]
      exact (sort_foldl_allkeep keep true _ _ _ hall).1
    have hnoroot : fs.dirs.contains [mROOT] = false := by
      cases hc : fs.dirs.contains [mROOT] with
      | false => rfl
      | true =>
          rcases List.contains_iff_exists_mem_beq.mp hc with ⟨x, hx, hbx⟩
          have hxe : [mROOT] = x := LawfulBEq.eq_of_beq hbx
          have := hdnm x hx
          rw [← hxe] at this
          simp [underMoved] at this
    have henum : remergeEnumerated (do_sort fs keep true).2 = [] := by
      rw [hfs1]
      unfold remergeEnumerated
      rw [if_neg (by
        intro hc
        rw [hnoroot] at hc
        exact absurd hc (by simp))]
    have hfinal : (do_remerge (do_sort fs keep true).2 [] true).2.files = fs.files := by
      have : do_remerge (do_sort fs keep true).2 [] true
          = (remergeEnumerated (do_sort fs keep true).2).foldl
              (remergeStep [] true) ({}, (do_sort fs keep true).2) := rfl
      rw [this, henum]
      simp [hfs1]
    constructor
    · rw [hfinal]
    · intro e he
      rw [hmvEntries, hMv] at he
      exact absurd he (by simp)
  · -- at least one file was moved
    rcases List.exists_mem_of_ne_nil _ hMv with ⟨p0, hp0⟩
    have hp0L : p0 ∈ collect_roms fs false := List.mem_of_mem_filter hp0
    have hroot : [mROOT] ∈ (do_sort fs keep true).2.dirs := by
      rw [hds]
      exact h4 p0 hp0L (hMvdec p0 hp0)
    have hfs1files : (do_sort fs keep true).2.files
        = fs.files.diff ((collect_roms fs false).filter (fun q => !sortDecide keep q))
          ++ ((collect_roms fs false).filter (fun q => !sortDecide keep q)).map
              mvDest := by
      rw [hds]
      exact h1
    have hfs1dirs : ∀ d ∈ (do_sort fs keep true).2.dirs,
        d ∈ fs.dirs ∨ (underMoved d = true ∧ d ≠ []) := by
      rw [hds]
      exact h3
    have hMvsub : List.Sublist
        ((collect_roms fs false).filter (fun q => !sortDecide keep q)) fs.files :=
      (List.filter_sublist _).trans (List.filter_sublist _)
    have hMvmem : ∀ r ∈ (collect_roms fs false).filter (fun q => !sortDecide keep q),
        r ∈ fs.files := fun r hr => hMvsub.subset hr
    have henum : remergeEnumerated (do_sort fs keep true).2
        = ((collect_roms fs false).filter (fun q => !sortDecide keep q)).map
            mvDest := by
      have hcont : (do_sort fs keep true).2.dirs.contains [mROOT] = true :=
        List.contains_iff_exists_mem_beq.mpr ⟨[mROOT], hroot, by simp⟩
      rw [remergeEnumerated, if_pos hcont, remergeCandidates, hfs1files,
        List.filter_append]
      have hleft : (fs.files.diff ((collect_roms fs false).filter
          (fun q => !sortDecide keep q))).filter
            (fun p => underMoved p && decide (2 ≤ p.length) && isRom p) = [] := by
        rw [List.filter_eq_nil_iff]
        intro x hx
        have hxf : x ∈ fs.files := List.diff_subset _ _ hx
        simp [hnm x hxf]
      have hright : (((collect_roms fs false).filter
          (fun q => !sortDecide keep q)).map mvDest).filter
            (fun p => underMoved p && decide (2 ≤ p.length) && isRom p)
          = ((collect_roms fs false).filter (fun q => !sortDecide keep q)).map
              mvDest := by
        rw [List.filter_eq_self]
        intro x hx
        rcases List.mem_map.mp hx with ⟨r, hr, rfl⟩
        have hrne : r ≠ [] := hne r (hMvmem r hr)
        have hrrom : isRom r = true := hLrom r (List.mem_of_mem_filter hr)
        simp [mvDest_underMoved, isRom_mvDest hrne, hrrom, mvDest_length hrne]
      rw [hleft, hright, List.nil_append]
    have hdr : do_remerge (do_sort fs keep true).2 [] true
        = (remergeEnumerated (do_sort fs keep true).2).foldl
            (remergeStep [] true) ({}, (do_sort fs keep true).2) := rfl
    have hfinal : (do_remerge (do_sort fs keep true).2 [] true).2.files
        = fs.files.diff ((collect_roms fs false).filter (fun q => !sortDecide keep q))
          ++ ((collect_roms fs false).filter (fun q => !sortDecide keep q)) := by
      rw [hdr, henum]
      rw [remerge_foldl_exact _ {} (do_sort fs keep true).2
        (List.Nodup.map (fun a b h => mvDest_inj h)
          (hLnd.filter _))
        (by
          intro x hx
          rw [hfs1files]
          exact List.mem_append_right _ hx)
        (by
          intro x hx
          rcases List.mem_map.mp hx with ⟨r, _, rfl⟩
          exact mvDest_underMoved r)
        (by
          intro x hx
          rcases List.mem_map.mp hx with ⟨r, hr, rfl⟩
          rw [mvDest_tail, hfs1files]
          intro hmm
          rcases List.mem_append.mp hmm with hh | hh
          · exact absurd hr (nodup_mem_diff_not_mem hnd hh)
          · rcases List.mem_map.mp hh with ⟨s, _, hsr⟩
            have : underMoved r = false := hnm r (hMvmem r hr)
            rw [← hsr, mvDest_underMoved] at this
            exact absurd this (by simp))
        (by
          intro x hx
          rcases List.mem_map.mp hx with ⟨r, hr, rfl⟩
          rw [mvDest_tail]
          intro hmm
          rcases hfs1dirs r hmm with hh | hh
          · exact hfd r (hMvmem r hr) hh
          · have := hnm r (hMvmem r hr)
            rw [hh.1] at this
            exact absurd this (by simp))
        (by
          intro x hx y hy hpfx
          rcases List.mem_map.mp hx with ⟨r, hr, rfl⟩
          rcases List.mem_map.mp hy with ⟨s, hs, rfl⟩
          rw [mvDest_tail, mvDest_tail] at hpfx
          have : r = s := hpref r (hMvmem r hr) s (hMvmem s hs) hpfx
          rw [this])]
      have hdiffself : ((do_sort fs keep true).2.files).diff
          (((collect_roms fs false).filter (fun q => !sortDecide keep q)).map mvDest)
          = fs.files.diff
              ((collect_roms fs false).filter (fun q => !sortDecide keep q)) := by
        rw [hfs1files]
        apply append_diff_self_right
        intro m hm hmm
        rcases List.mem_map.mp hm with ⟨r, _, rfl⟩
        have hru : underMoved (mvDest r) = true := mvDest_underMoved r
        have hrf : mvDest r ∈ fs.files := List.diff_subset _ _ hmm
        rw [hnm _ hrf] at hru
        exact absurd hru (by simp)
      have hmaptail : (((collect_roms fs false).filter
            (fun q => !sortDecide keep q)).map mvDest).map (fun p => p.tail)
          = (collect_roms fs false).filter (fun q => !sortDecide keep q) := by
        rw [List.map_map]
        have hcomp : ((fun p : FPath => p.tail) ∘ mvDest) = id := funext mvDest_tail
        rw [hcomp, List.map_id]
      rw [hdiffself, hmaptail]
    constructor
    · rw [hfinal]
      exact sublist_diff_append_perm _ _ hMvsub
    · intro e he
      rw [hmvEntries] at he
      rcases List.mem_map.mp he with ⟨r, hr, rfl⟩
      rw [hfinal]
      exact List.mem_append_right _ hr

/-- Closed instance of `C1_round_trip`: sorting a two-file library with
keep set `{en}` and remerging with the restore-all sentinel restores the
original file set. -/
theorem C1_round_trip_witness :
    List.Perm
      (do_remerge
        (do_sort ⟨[["r", "A (Japan).nes"], ["r", "B (USA).nes"]], [["r"]]⟩
          ["en"] true).2 [] true).2.files
      [["r", "A (Japan).nes"], ["r", "B (USA).nes"]] :=
  (C1_round_trip ⟨[["r", "A (Japan).nes"], ["r", "B (USA).nes"]], [["r"]]⟩ ["en"]
    (by decide) (by decide) (by decide) (by decide) (by decide) (by decide)).1

/-! ## Cleanup sweep -/

/-- C8 counterexample: with `Moved ROMS/A/B/g.nes` as the only moved
file, a live restore-all remerge leaves no file under `Moved ROMS/`, yet
the sweep removes only the innermost directory `Moved ROMS/A/B`: the
directory `Moved ROMS/A` — although the remerge emptied it of files and
the sweep just emptied it of subdirectories — and the `Moved ROMS` root
itself both survive, contradicting the claim that all emptied
subdirectories and the emptied root are removed. -/
theorem C8_cleanup_counterexample :
    (∀ p ∈ (do_remerge ⟨[["Moved ROMS", "A", "B", "g.nes"]],
        [["Moved ROMS"], ["Moved ROMS", "A"], ["Moved ROMS", "A", "B"]]⟩
        [] true).2.files, underMoved p = false)
    ∧ ["Moved ROMS", "A", "B"] ∈ (cleanup_empty_dirs
        (do_remerge ⟨[["Moved ROMS", "A", "B", "g.nes"]],
          [["Moved ROMS"], ["Moved ROMS", "A"], ["Moved ROMS", "A", "B"]]⟩
          [] true).2 ["Moved ROMS"]).1
    ∧ ["Moved ROMS", "A"] ∈ (cleanup_empty_dirs
        (do_remerge ⟨[["Moved ROMS", "A", "B", "g.nes"]],
          [["Moved ROMS"], ["Moved ROMS", "A"], ["Moved ROMS", "A", "B"]]⟩
          [] true).2 ["Moved ROMS"]).2.dirs
    ∧ ["Moved ROMS"] ∈ (cleanup_empty_dirs
        (do_remerge ⟨[["Moved ROMS", "A", "B", "g.nes"]],
          [["Moved ROMS"], ["Moved ROMS", "A"], ["Moved ROMS", "A", "B"]]⟩
          [] true).2 ["Moved ROMS"]).2.dirs := by
  decide

theorem fpath_contains_iff {l : List FPath} {a : FPath} :
    l.contains a = true ↔ a ∈ l := by
  constructor
  · intro h
    rcases List.contains_iff_exists_mem_beq.mp h with ⟨x, hx, hbx⟩
    exact (LawfulBEq.eq_of_beq hbx) ▸ hx
  · intro h
    exact List.contains_iff_exists_mem_beq.mpr ⟨a, h, by simp⟩

/-- C8 as amended: the sweep removes exactly the visited directories that
already have zero child files and zero child directories in the pre-sweep
state; a directory still holding a file is never removed; files are
untouched; and the surviving directories are exactly the previous ones
minus the removed ones (so directories emptied only by the sweep itself,
including the root, survive). -/
theorem C8_cleanup_amended (fs : FS) (root : FPath) :
    (∀ d, d ∈ (cleanup_empty_dirs fs root).1
        ↔ d ∈ walkDirs fs root ∧ childFiles fs d = false ∧ childDirs fs d = false)
    ∧ (∀ d ∈ fs.dirs, childFiles fs d = true →
        d ∈ (cleanup_empty_dirs fs root).2.dirs)
    ∧ (cleanup_empty_dirs fs root).2.files = fs.files
    ∧ (∀ d, d ∈ (cleanup_empty_dirs fs root).2.dirs
        ↔ d ∈ fs.dirs ∧ d ∉ (cleanup_empty_dirs fs root).1) := by
  have hrem : ∀ d, d ∈ (cleanup_empty_dirs fs root).1
      ↔ d ∈ walkDirs fs root ∧ childFiles fs d = false ∧ childDirs fs d = false := by
    intro d
    simp only [cleanup_empty_dirs, List.mem_filter, Bool.and_eq_true,
      Bool.not_eq_true']
  have hdirs : ∀ d, d ∈ (cleanup_empty_dirs fs root).2.dirs
      ↔ d ∈ fs.dirs ∧ d ∉ (cleanup_empty_dirs fs root).1 := by
    intro d
    rw [show (cleanup_empty_dirs fs root).2.dirs = fs.dirs.filter
        (fun x => !((cleanup_empty_dirs fs root).1).contains x) from rfl,
      List.mem_filter]
    constructor
    · rintro ⟨h1, h2⟩
      refine ⟨h1, fun hmem => ?_⟩
      rw [fpath_contains_iff.mpr hmem] at h2
      exact absurd h2 (by simp)
    · rintro ⟨h1, h2⟩
      refine ⟨h1, ?_⟩
      cases hc : ((cleanup_empty_dirs fs root).1).contains d with
      | false => simp [hc]
      | true => exact absurd (fpath_contains_iff.mp hc) h2
  refine ⟨hrem, ?_, rfl, hdirs⟩
  intro d hd hcf
  refine (hdirs d).mpr ⟨hd, ?_⟩
  intro hmem
  rcases (hrem d).mp hmem with ⟨_, h2, _⟩
  rw [hcf] at h2
  exact absurd h2 (by simp)

/-- Closed instance of `C8_cleanup_amended`: a moved-aside subdirectory
still holding a file survives the sweep, while an empty sibling is
removed. -/
theorem C8_cleanup_amended_witness :
    ["Moved ROMS", "A"] ∈ (cleanup_empty_dirs
        ⟨[["Moved ROMS", "A", "g.nes"]],
          [["Moved ROMS"], ["Moved ROMS", "A"], ["Moved ROMS", "B"]]⟩
        ["Moved ROMS"]).2.dirs
    ∧ ["Moved ROMS", "B"] ∈ (cleanup_empty_dirs
        ⟨[["Moved ROMS", "A", "g.nes"]],
          [["Moved ROMS"], ["Moved ROMS", "A"], ["Moved ROMS", "B"]]⟩
        ["Moved ROMS"]).1 := by
  constructor
  · exact (C8_cleanup_amended ⟨[["Moved ROMS", "A", "g.nes"]],
      [["Moved ROMS"], ["Moved ROMS", "A"], ["Moved ROMS", "B"]]⟩
      ["Moved ROMS"]).2.1 ["Moved ROMS", "A"] (by decide) (by decide)
  · exact ((C8_cleanup_amended ⟨[["Moved ROMS", "A", "g.nes"]],
      [["Moved ROMS"], ["Moved ROMS", "A"], ["Moved ROMS", "B"]]⟩
      ["Moved ROMS"]).1 ["Moved ROMS", "B"]).mpr (by decide)

/-! ## Detection claims -/

theorem mem_ite_singleton {c : Prop} [Decidable c] {a x : String} :
    a ∈ (if c then [x] else ([] : List String)) ↔ c ∧ a = x := by
  by_cases h : c <;> simp [h]

theorem mem_detect_en (s : String) :
    "en" ∈ detect_languages s ↔ patEn (s.data.map Char.toLower) = true := by
  simp [detect_languages, mem_ite_singleton]

theorem mem_detect_jp (s : String) :
    "jp" ∈ detect_languages s ↔ patJp (s.data.map Char.toLower) = true := by
  simp [detect_languages, mem_ite_singleton]

theorem mem_detect_fr (s : String) :
    "fr" ∈ detect_languages s ↔ patFr (s.data.map Char.toLower) = true := by
  simp [detect_languages, mem_ite_singleton]

theorem mem_detect_de (s : String) :
    "de" ∈ detect_languages s ↔ patDe (s.data.map Char.toLower) = true := by
  simp [detect_languages, mem_ite_singleton]

theorem mem_detect_es (s : String) :
    "es" ∈ detect_languages s ↔ patEs (s.data.map Char.toLower) = true := by
  simp [detect_languages, mem_ite_singleton]

theorem mem_detect_it (s : String) :
    "it" ∈ detect_languages s ↔ patIt (s.data.map Char.toLower) = true := by
  simp [detect_languages, mem_ite_singleton]

theorem mem_detect_pt (s : String) :
    "pt" ∈ detect_languages s ↔ patPt (s.data.map Char.toLower) = true := by
  simp [detect_languages, mem_ite_singleton]

theorem mem_detect_ru (s : String) :
    "ru" ∈ detect_languages s ↔ patRu (s.data.map Char.toLower) = true := by
  simp [detect_languages, mem_ite_singleton]

theorem mem_detect_ko (s : String) :
    "ko" ∈ detect_languages s ↔ patKo (s.data.map Char.toLower) = true := by
  simp [detect_languages, mem_ite_singleton]

theorem mem_detect_zh (s : String) :
    "zh" ∈ detect_languages s ↔ patZh (s.data.map Char.toLower) = true := by
  simp [detect_languages, mem_ite_singleton]

theorem mem_detect_eu (s : String) :
    "eu" ∈ detect_languages s ↔ patEu (s.data.map Char.toLower) = true := by
  simp [detect_languages, mem_ite_singleton]

theorem anyWordToken_of_mem (toks : List (List Char)) (tok t : List Char)
    (h : tok ∈ toks) (hw : hasWordToken tok t = true) :
    anyWordToken toks t = true :=
  List.any_eq_true.mpr ⟨tok, h, hw⟩

theorem hasWordTokenFrom_mono {tok t : List Char} {lo : Nat}
    (h : hasWordTokenFrom tok t lo = true) : hasWordToken tok t = true := by
  unfold hasWordToken hasWordTokenFrom at *
  rcases List.any_eq_true.mp h with ⟨i, hi, hconj⟩
  refine List.any_eq_true.mpr ⟨i, hi, ?_⟩
  simp only [Bool.and_eq_true] at hconj ⊢
  exact ⟨by simp, hconj.2⟩

theorem hasWordToken_of_at {tok t : List Char} {i : Nat}
    (hi : i ∈ List.range (t.length + 1)) (hw : wordTokenAt tok t i = true) :
    hasWordToken tok t = true := by
  unfold hasWordToken hasWordTokenFrom
  refine List.any_eq_true.mpr ⟨i, hi, ?_⟩
  simp [hw]

/-- English word-alternation tokens shared by the embedded patterns. -/
def enWordToks : List (List Char) := ["en".data, "eng".data, "english".data]

theorem enTokenFrom_extract {t : List Char} {lo : Nat}
    (h : enTokenFrom t lo = true) :
    ∃ tok ∈ enWordToks, hasWordToken tok t = true := by
  unfold enTokenFrom at h
  simp only [Bool.or_eq_true] at h
  rcases h with (h | h) | h
  · exact ⟨"en".data, by simp [enWordToks], hasWordTokenFrom_mono h⟩
  · exact ⟨"eng".data, by simp [enWordToks], hasWordTokenFrom_mono h⟩
  · exact ⟨"english".data, by simp [enWordToks], hasWordTokenFrom_mono h⟩

/-- Simple (single-literal, word-bounded) region or language tokens of
the pattern table, paired with the tag each activates. -/
def simpleTokenTable : List (String × List (List Char)) :=
  [("en", ["usa".data, "u".data, "en".data, "eng".data, "english".data,
     "world".data]),
   ("jp", ["jpn".data, "japan".data, "j".data]),
   ("fr", ["fr".data, "fra".data, "french".data, "francais".data,
     "français".data]),
   ("de", ["de".data, "ger".data, "german".data, "deutsch".data]),
   ("es", ["es".data, "spa".data, "spanish".data, "español".data,
     "espanol".data, "castellano".data]),
   ("it", ["ita".data, "it".data, "italian".data, "italiano".data]),
   ("pt", ["pt".data, "portugues".data, "português".data, "brazil".data,
     "br".data]),
   ("ru", ["ru".data, "rus".data, "russian".data, "русский".data]),
   ("ko", ["kor".data, "korea".data, "korean".data]),
   ("zh", ["chn".data, "china".data, "chinese".data])]

/-- Tags whose matchers fire only through word-bounded tokens, paired
with their complete token alternatives. -/
def soundTokenTable : List (String × List (List Char)) :=
  [("en", ["usa".data, "u".data, "en".data, "eng".data, "english".data,
     "world".data]),
   ("fr", ["fr".data, "fra".data, "french".data, "francais".data,
     "français".data]),
   ("de", ["de".data, "ger".data, "german".data, "deutsch".data]),
   ("es", ["es".data, "spa".data, "spanish".data, "español".data,
     "espanol".data, "castellano".data]),
   ("it", ["ita".data, "it".data, "italian".data, "italiano".data]),
   ("pt", ["pt".data, "portugues".data, "português".data, "brazil".data,
     "br".data]),
   ("ru", ["ru".data, "rus".data, "russian".data, "русский".data]),
   ("eu", ["eur".data, "europe".data, "eu".data])]

/-- C5 counterexample: the stem `Game (Europe) (En)` contains the
recognized region token `Europe` delimited by word boundaries, yet
`detect_languages` does not include the corresponding `eu` tag, because
the pattern's negative lookahead sees the English token after it. -/
theorem C5_token_detection_counterexample :
    hasWordToken "europe".data ("Game (Europe) (En)".data.map Char.toLower) = true
    ∧ "eu" ∉ detect_languages "Game (Europe) (En)" := by
  decide

/-- C5 as amended: every word-bounded occurrence of a simple recognized
token activates its tag, except that the `eu` region tokens
(`EUR`/`Europe`/`EU`) activate `eu` only under the negative lookahead —
in particular they do whenever no English token occurs in the stem; and
word-token tags are never activated without a word-bounded occurrence of
one of their tokens (so a token embedded inside a longer word, as in
`Museum`, never fires). -/
theorem C5_token_detection (s : String) :
    (∀ pr ∈ simpleTokenTable, ∀ tok ∈ pr.2,
        hasWordToken tok (s.data.map Char.toLower) = true →
        pr.1 ∈ detect_languages s)
    ∧ ((∃ tok ∈ ["eur".data, "europe".data, "eu".data],
          hasWordToken tok (s.data.map Char.toLower) = true) →
        (∀ etok ∈ enWordToks,
          hasWordToken etok (s.data.map Char.toLower) = false) →
        "eu" ∈ detect_languages s)
    ∧ (∀ pr ∈ soundTokenTable, pr.1 ∈ detect_languages s →
        ∃ tok ∈ pr.2, hasWordToken tok (s.data.map Char.toLower) = true)
    ∧ detect_languages "Museum" = [] := by
  refine ⟨?_, ?_, ?_, by decide⟩
  · intro pr hpr
    simp only [simpleTokenTable, List.mem_cons, List.not_mem_nil, or_false] at hpr
    rcases hpr with rfl | rfl | rfl | rfl | rfl | rfl | rfl | rfl | rfl | rfl
    · intro tok htok hw
      simp only [List.mem_cons, List.not_mem_nil, or_false] at htok
      refine (mem_detect_en s).mpr ?_
      rcases htok with rfl | rfl | rfl | rfl | rfl | rfl
      · simp [patEn, anyWordToken_of_mem ["usa".data, "u".data] "usa".data _
          (by decide) hw]
      · simp [patEn, anyWordToken_of_mem ["usa".data, "u".data] "u".data _
          (by decide) hw]
      · simp [patEn, anyWordToken_of_mem ["en".data, "eng".data, "english".data]
          "en".data _ (by decide) hw]
      · simp [patEn, anyWordToken_of_mem ["en".data, "eng".data, "english".data]
          "eng".data _ (by decide) hw]
      · simp [patEn, anyWordToken_of_mem ["en".data, "eng".data, "english".data]
          "english".data _ (by decide) hw]
      · simp [patEn, anyWordToken_of_mem ["world".data] "world".data _
          (by decide) hw]
    · intro tok htok hw
      exact (mem_detect_jp s).mpr (by
        simp [patJp, anyWordToken_of_mem ["jpn".data, "japan".data, "j".data]
          tok _ htok hw])
    · intro tok htok hw
      exact (mem_detect_fr s).mpr (by
        simp [patFr, anyWordToken_of_mem ["fr".data, "fra".data, "french".data,
          "francais".data, "français".data] tok _ htok hw])
    · intro tok htok hw
      exact (mem_detect_de s).mpr (by
        simp [patDe, anyWordToken_of_mem ["de".data, "ger".data, "german".data,
          "deutsch".data] tok _ htok hw])
    · intro tok htok hw
      exact (mem_detect_es s).mpr (by
        simp [patEs, anyWordToken_of_mem ["es".data, "spa".data, "spanish".data,
          "español".data, "espanol".data, "castellano".data] tok _ htok hw])
    · intro tok htok hw
      exact (mem_detect_it s).mpr (by
        simp [patIt, anyWordToken_of_mem ["ita".data, "it".data, "italian".data,
          "italiano".data] tok _ htok hw])
    · intro tok htok hw
      exact (mem_detect_pt s).mpr (by
        simp [patPt, anyWordToken_of_mem ["pt".data, "portugues".data,
          "português".data, "brazil".data, "br".data] tok _ htok hw])
    · intro tok htok hw
      exact (mem_detect_ru s).mpr (by
        simp [patRu, anyWordToken_of_mem ["ru".data, "rus".data, "russian".data,
          "русский".data] tok _ htok hw])
    · intro tok htok hw
      exact (mem_detect_ko s).mpr (by
        simp [patKo, anyWordToken_of_mem ["kor".data, "korea".data,
          "korean".data] tok _ htok hw])
    · intro tok htok hw
      exact (mem_detect_zh s).mpr (by
        simp [patZh, anyWordToken_of_mem ["chn".data, "china".data,
          "chinese".data] tok _ htok hw])
  · rintro ⟨tok, htok, hw⟩ hnoen
    refine (mem_detect_eu s).mpr ?_
    unfold hasWordToken hasWordTokenFrom at hw
    rcases List.any_eq_true.mp hw with ⟨i, hi, hconj⟩
    have hwAt : wordTokenAt tok (s.data.map Char.toLower) i = true := by
      simp only [Bool.and_eq_true] at hconj
      exact hconj.2
    unfold patEu
    refine List.any_eq_true.mpr ⟨i, hi, ?_⟩
    refine List.any_eq_true.mpr ⟨tok, ?_, ?_⟩
    · simpa [euAlts] using htok
    · simp only [Bool.and_eq_true, Bool.not_eq_true']
      refine ⟨hwAt, ?_⟩
      cases hen : enTokenFrom (s.data.map Char.toLower) (i + tok.length) with
      | false => rfl
      | true =>
          rcases enTokenFrom_extract hen with ⟨etok, hetok, hhw⟩
          rw [hnoen etok hetok] at hhw
          exact absurd hhw (by simp)
  · intro pr hpr
    simp only [soundTokenTable, List.mem_cons, List.not_mem_nil, or_false] at hpr
    rcases hpr with rfl | rfl | rfl | rfl | rfl | rfl | rfl | rfl
    · intro hdet
      have hp := (mem_detect_en s).mp hdet
      simp only [patEn, Bool.or_eq_true] at hp
      rcases hp with (((h | h) | h) | h) | h
      · rcases List.any_eq_true.mp h with ⟨tok, htok, hw⟩
        simp only [List.mem_cons, List.not_mem_nil, or_false] at htok
        rcases htok with rfl | rfl
        · exact ⟨"usa".data, by simp, hw⟩
        · exact ⟨"u".data, by simp, hw⟩
      · rcases List.any_eq_true.mp h with ⟨tok, htok, hw⟩
        simp only [List.mem_cons, List.not_mem_nil, or_false] at htok
        rcases htok with rfl | rfl | rfl
        · exact ⟨"en".data, by simp, hw⟩
        · exact ⟨"eng".data, by simp, hw⟩
        · exact ⟨"english".data, by simp, hw⟩
      · unfold patEnEurope at h
        rcases List.any_eq_true.mp h with ⟨i, _, hconj⟩
        simp only [Bool.and_eq_true] at hconj
        rcases enTokenFrom_extract hconj.2 with ⟨etok, hetok, hhw⟩
        simp only [enWordToks, List.mem_cons, List.not_mem_nil, or_false] at hetok
        rcases hetok with rfl | rfl | rfl
        · exact ⟨"en".data, by simp, hhw⟩
        · exact ⟨"eng".data, by simp, hhw⟩
        · exact ⟨"english".data, by simp, hhw⟩
      · rcases List.any_eq_true.mp h with ⟨tok, htok, hw⟩
        simp only [List.mem_cons, List.not_mem_nil, or_false] at htok
        rcases htok with rfl
        exact ⟨"world".data, by simp, hw⟩
      · unfold patEnUsaEurope at h
        rcases List.any_eq_true.mp h with ⟨i, _, hconj⟩
        simp only [Bool.and_eq_true, Bool.or_eq_true] at hconj
        rcases hconj.2 with hc | hc
        · exact ⟨"en".data, by simp, hasWordTokenFrom_mono hc.2⟩
        · exact ⟨"en".data, by simp, hasWordTokenFrom_mono hc.2⟩
    · intro hdet
      have hp := (mem_detect_fr s).mp hdet
      unfold patFr anyWordToken at hp
      exact List.any_eq_true.mp hp
    · intro hdet
      have hp := (mem_detect_de s).mp hdet
      unfold patDe anyWordToken at hp
      exact List.any_eq_true.mp hp
    · intro hdet
      have hp := (mem_detect_es s).mp hdet
      unfold patEs anyWordToken at hp
      exact List.any_eq_true.mp hp
    · intro hdet
      have hp := (mem_detect_it s).mp hdet
      unfold patIt anyWordToken at hp
      exact List.any_eq_true.mp hp
    · intro hdet
      have hp := (mem_detect_pt s).mp hdet
      unfold patPt anyWordToken at hp
      exact List.any_eq_true.mp hp
    · intro hdet
      have hp := (mem_detect_ru s).mp hdet
      unfold patRu anyWordToken at hp
      exact List.any_eq_true.mp hp
    · intro hdet
      have hp := (mem_detect_eu s).mp hdet
      unfold patEu at hp
      rcases List.any_eq_true.mp hp with ⟨i, hi, hconj⟩
      rcases List.any_eq_true.mp hconj with ⟨tok, htok, hb⟩
      simp only [Bool.and_eq_true] at hb
      exact ⟨tok, by simpa [euAlts] using htok, hasWordToken_of_at hi hb.1⟩

/-- Closed instance of `C5_token_detection`: the `Japan` token activates
`jp`, and a lone `Europe` token (no English token present) activates
`eu`. -/
theorem C5_token_detection_witness :
    "jp" ∈ detect_languages "A (Japan)" ∧ "eu" ∈ detect_languages "A (Europe)" := by
  constructor
  · exact (C5_token_detection "A (Japan)").1 ("jp", ["jpn".data, "japan".data,
      "j".data]) (by decide) "japan".data (by decide) (by decide)
  · exact (C5_token_detection "A (Europe)").2.1
      ⟨"europe".data, by decide, by decide⟩ (by decide)

/-- C9 counterexample: in `English Europe` an English token is detected
alongside a word-bounded `Europe` region token, yet `eu` is still
included, because the negative lookahead only inspects the stem after
the region token and the English token occurs before it. -/
theorem C9_eu_suppression_counterexample :
    "en" ∈ detect_languages "English Europe"
    ∧ hasWordToken "europe".data ("English Europe".data.map Char.toLower) = true
    ∧ "eu" ∈ detect_languages "English Europe" := by
  decide

/-- C9 as amended: if every word-bounded occurrence of a `EUR`, `Europe`
or `EU` token is followed, at or after its end, by a word-bounded
English token (the trailing-language-list convention), then
`detect_languages` does not include the `eu` tag. -/
theorem C9_eu_suppression (s : String)
    (h : ∀ i ∈ List.range ((s.data.map Char.toLower).length + 1),
      ∀ tok ∈ euAlts, wordTokenAt tok (s.data.map Char.toLower) i = true →
        enTokenFrom (s.data.map Char.toLower) (i + tok.length) = true) :
    "eu" ∉ detect_languages s := by
  intro hdet
  have hp := (mem_detect_eu s).mp hdet
  unfold patEu at hp
  rcases List.any_eq_true.mp hp with ⟨i, hi, hconj⟩
  rcases List.any_eq_true.mp hconj with ⟨tok, htok, hb⟩
  simp only [Bool.and_eq_true, Bool.not_eq_true'] at hb
  have := h i hi tok htok hb.1
  rw [hb.2] at this
  exact absurd this (by simp)

/-- Closed instance of `C9_eu_suppression`: `Game (Europe) (En)` has its
only region token followed by an English token, so `eu` is suppressed. -/
theorem C9_eu_suppression_witness :
    "eu" ∉ detect_languages "Game (Europe) (En)" :=
  C9_eu_suppression "Game (Europe) (En)" (by decide)
